import Mathlib

/-!
# Verification of the incremental multi-source sync engine

A shallow embedding, in Lean 4, of the sync engine of this repository
(`src/sync/__init__.py` and `src/sync/connectors/{gdrive,github,gmail,slack}.py`):
the `StateManager`, the orchestrator `sync_all_async`, the Google Drive
connector's download/diff/exclusion pipeline, the Gmail sender allow-list
check, and the token-bucket `RateLimiter`.

Python strings are modelled as `List Char` (`Str`), Python dicts as
association lists with first-match lookup and in-place upsert (matching
dict key-update semantics observably), float time/token arithmetic as `ℚ`,
and coroutine effects (file writes, `update_item` calls, deletions) as
explicitly returned traces.
-/

set_option maxHeartbeats 1000000

namespace SyncSpec

/-- Python strings, modelled as lists of characters. -/
abbrev Str := List Char

/-- Literal helper: a Lean string literal as a `Str`. -/
def str (s : String) : Str := s.toList

/-- `'/'`, the path separator used by the Drive folder-path resolution. -/
def sep : Char := '/'

/-- Python `s.lower()` (ASCII-level, as used on folder paths and emails). -/
def lowerStr (s : Str) : Str := s.map Char.toLower

/-- Dict lookup `d.get(k)`: first matching key wins. -/
def alookup {β : Type} (l : List (Str × β)) (k : Str) : Option β :=
  match l with
  | [] => none
  | (k', v) :: rest => if k' = k then some v else alookup rest k

/-- Dict update `d[k] = v`: replace the (first) binding of `k` in place, or
append a fresh binding at the end (Python dicts keep insertion order). -/
def upsert {β : Type} (l : List (Str × β)) (k : Str) (v : β) : List (Str × β) :=
  match l with
  | [] => [(k, v)]
  | (k', v') :: rest => if k' = k then (k, v) :: rest else (k', v') :: upsert rest k v

theorem alookup_upsert_self {β : Type} (l : List (Str × β)) (k : Str) (v : β) :
    alookup (upsert l k v) k = some v := by
  induction l with
  | nil => simp [upsert, alookup]
  | cons hd tl ih =>
    obtain ⟨k', v'⟩ := hd
    by_cases h : k' = k <;> simp [upsert, alookup, h, ih]

theorem alookup_upsert_ne {β : Type} (l : List (Str × β)) (k k' : Str) (v : β)
    (h : k' ≠ k) : alookup (upsert l k v) k' = alookup l k' := by
  induction l with
  | nil => simp [upsert, alookup, Ne.symm h]
  | cons hd tl ih =>
    obtain ⟨k₀, v₀⟩ := hd
    by_cases h0 : k₀ = k
    · subst h0
      simp [upsert, alookup, Ne.symm h]
    · simp only [upsert, if_neg h0]
      by_cases h1 : k₀ = k'
      · simp [alookup, h1]
      · simp [alookup, h1, ih]

end SyncSpec

namespace SyncSpec

/-!
## StateManager (`src/sync/__init__.py`, class `StateManager`)

The persisted state is one JSON object whose `"last_sync"` key holds a
timestamp (or `null`) and whose remaining keys map a source name to a dict
of per-item states.  A value in that object is therefore either a
timestamp or an item map: -/

/-- One value of the persisted state dict: the `last_sync` timestamp or a
per-source item map (item states have connector-defined type `α`). -/
inductive SVal (α : Type) where
  | time : Option Str → SVal α
  | items : List (Str × α) → SVal α
deriving DecidableEq

/-- The persisted state object (`StateManager.state`). -/
abbrev SyncState (α : Type) := List (Str × SVal α)

/-- The `"last_sync"` key. -/
def lastSyncKey : Str := str "last_sync"

/-- `StateManager.update_item(source, item_id, item_state)` acting on the
in-memory dict: create the source map if absent, then upsert the one item.
Returns `none` when the `source` key holds the timestamp value instead of a
map — there the Python item assignment raises `TypeError`. -/
def updateItemState {α : Type} (st : SyncState α) (source itemID : Str) (v : α) :
    Option (SyncState α) :=
  match alookup st source with
  | none => some (upsert st source (SVal.items [(itemID, v)]))
  | some (SVal.items m) => some (upsert st source (SVal.items (upsert m itemID v)))
  | some (SVal.time _) => none

/-- `StateManager.finalize()` acting on the in-memory dict:
`state["last_sync"] = datetime.now().isoformat()`. -/
def finalizeState {α : Type} (st : SyncState α) (now : Str) : SyncState α :=
  upsert st lastSyncKey (SVal.time (some now))

/-- The `StateManager` with its durable file: `mem` is `self.state`, `disk`
is the content of `sync_state.json` (written whole by `_save`). -/
structure SMgr (α : Type) where
  mem : SyncState α
  disk : SyncState α
deriving DecidableEq

/-- `StateManager.__init__`: the in-memory state is loaded from the file. -/
def SMgr.load {α : Type} (st : SyncState α) : SMgr α := ⟨st, st⟩

/-- `update_item` followed by `_save` (the whole object is flushed before
returning). -/
def SMgr.updateItem {α : Type} (sm : SMgr α) (source itemID : Str) (v : α) :
    Option (SMgr α) :=
  (updateItemState sm.mem source itemID v).map (fun st => ⟨st, st⟩)

/-- `finalize` followed by `_save`. -/
def SMgr.finalize {α : Type} (sm : SMgr α) (now : Str) : SMgr α :=
  ⟨finalizeState sm.mem now, finalizeState sm.mem now⟩

/-- Lookup of one item entry in the state object. -/
def itemLookup {α : Type} (st : SyncState α) (source itemID : Str) : Option α :=
  match alookup st source with
  | some (SVal.items m) => alookup m itemID
  | _ => none

theorem updateItemState_target {α : Type} (st st' : SyncState α) (source itemID : Str)
    (v : α) (h : updateItemState st source itemID v = some st') :
    itemLookup st' source itemID = some v := by
  unfold updateItemState at h
  rcases hl : alookup st source with _ | val
  · rw [hl] at h
    injection h with h
    subst h
    simp [itemLookup, alookup_upsert_self, alookup]
  · rcases val with t | m
    · rw [hl] at h
      exact absurd h (by simp)
    · rw [hl] at h
      injection h with h
      subst h
      simp [itemLookup, alookup_upsert_self, alookup_upsert_self m itemID v]

theorem updateItemState_frame_source {α : Type} (st st' : SyncState α)
    (source itemID s' : Str) (v : α)
    (h : updateItemState st source itemID v = some st') (hne : s' ≠ source) :
    alookup st' s' = alookup st s' := by
  unfold updateItemState at h
  rcases hl : alookup st source with _ | val
  · rw [hl] at h
    injection h with h
    subst h
    exact alookup_upsert_ne st source s' _ hne
  · rcases val with t | m
    · rw [hl] at h; exact absurd h (by simp)
    · rw [hl] at h
      injection h with h
      subst h
      exact alookup_upsert_ne st source s' _ hne

theorem updateItemState_frame_item {α : Type} (st st' : SyncState α)
    (source itemID i' : Str) (v : α)
    (h : updateItemState st source itemID v = some st') (hne : i' ≠ itemID) :
    itemLookup st' source i' = itemLookup st source i' := by
  unfold updateItemState at h
  rcases hl : alookup st source with _ | val
  · rw [hl] at h
    injection h with h
    subst h
    simp [itemLookup, alookup_upsert_self, hl, alookup, Ne.symm hne]
  · rcases val with t | m
    · rw [hl] at h; exact absurd h (by simp)
    · rw [hl] at h
      injection h with h
      subst h
      simp [itemLookup, alookup_upsert_self, hl,
        alookup_upsert_ne m itemID i' v hne]

end SyncSpec

namespace SyncSpec

/-- C2: a successful `StateManager.update_item(source, itemID, itemState)`
sets exactly `state[source][itemID]`, leaves every other source's value
(hence any `last_sync` timestamp) and every other item of the same source
unchanged, and flushes the whole updated object to the state file before
returning (`disk = mem` afterwards). -/
theorem C2_update_item_frame {α : Type} (sm : SMgr α) (source itemID : Str) (v : α)
    (sm' : SMgr α) (h : SMgr.updateItem sm source itemID v = some sm') :
    itemLookup sm'.mem source itemID = some v ∧
    (∀ s' : Str, s' ≠ source → alookup sm'.mem s' = alookup sm.mem s') ∧
    (∀ i' : Str, i' ≠ itemID → itemLookup sm'.mem source i' = itemLookup sm.mem source i') ∧
    (∀ t, alookup sm.mem lastSyncKey = some (SVal.time t) →
      alookup sm'.mem lastSyncKey = some (SVal.time t)) ∧
    sm'.disk = sm'.mem := by
  unfold SMgr.updateItem at h
  rcases hu : updateItemState sm.mem source itemID v with _ | st'
  · rw [hu] at h; exact absurd h (by simp)
  · rw [hu] at h
    injection h with h
    subst h
    refine ⟨updateItemState_target _ _ _ _ _ hu,
      fun s' hs => updateItemState_frame_source _ _ _ _ _ _ hu hs,
      fun i' hi => updateItemState_frame_item _ _ _ _ _ _ hu hi, ?_, rfl⟩
    intro t hts
    by_cases hsrc : lastSyncKey = source
    · subst hsrc
      unfold updateItemState at hu
      rw [hts] at hu
      exact absurd hu (by simp)
    · rw [updateItemState_frame_source _ _ _ _ _ _ hu hsrc, hts]

/-- Witness for C2 at a concrete state: updating `slack/ch1` in a state that
already holds `last_sync`, a `slack` map with `ch1`,`ch2` and a `gdrive`
map. -/
theorem C2_update_item_frame_witness :
    ∃ sm' : SMgr Nat,
      SMgr.updateItem (SMgr.load
        [(str "last_sync", SVal.time (some (str "2024-01-01"))),
         (str "slack", SVal.items [(str "ch1", 1), (str "ch2", 2)]),
         (str "gdrive", SVal.items [(str "d1", 3)])])
        (str "slack") (str "ch1") 9 = some sm' ∧
      itemLookup sm'.mem (str "slack") (str "ch1") = some 9 ∧
      itemLookup sm'.mem (str "slack") (str "ch2") = some 2 ∧
      itemLookup sm'.mem (str "gdrive") (str "d1") = some 3 ∧
      alookup sm'.mem lastSyncKey = some (SVal.time (some (str "2024-01-01"))) ∧
      sm'.disk = sm'.mem := by
  refine ⟨_, rfl, ?_⟩
  have h := C2_update_item_frame (α := Nat) (SMgr.load
        [(str "last_sync", SVal.time (some (str "2024-01-01"))),
         (str "slack", SVal.items [(str "ch1", 1), (str "ch2", 2)]),
         (str "gdrive", SVal.items [(str "d1", 3)])])
        (str "slack") (str "ch1") 9 _ rfl
  refine ⟨h.1, ?_, ?_, ?_, h.2.2.2.2⟩
  · exact (h.2.2.1 (str "ch2") (by decide)).trans (by decide)
  · have := h.2.1 (str "gdrive") (by decide)
    unfold itemLookup
    rw [this]
    decide
  · exact h.2.2.2.1 _ (by decide)

end SyncSpec

namespace SyncSpec
namespace Orchestrator

/-!
## SyncOrchestrator (`src/sync/__init__.py`, `sync_all_async`)

A connector's observable behaviour during one run is: its name, whether it
is enabled, whether `setup()` returns true, the sequence of
`update_item(self.name, itemID, itemState)` calls its `download()` makes
(in order, before its outcome), and its outcome — either a returned pair
`(new_state, ConnectorResult(items_synced, items_skipped))` or an escaping
exception.
-/

/-- Events observable during one `sync_all_async` run. -/
inductive Event where
  | setupEv : Str → Bool → Event
  | downloadEv : Str → Event
  | finalizeEv : Event
deriving DecidableEq

/-- Outcome of one connector's `download()`: a returned
`(new_state, result)` pair, or an exception escaping `download()`. -/
inductive COutcome (α : Type) where
  | ok : List (Str × α) → Nat → Nat → COutcome α
  | exn : COutcome α
deriving DecidableEq

/-- One connector's behaviour for this run (see module docstring). -/
structure CRun (α : Type) where
  cname : Str
  enabledC : Bool
  setupOk : Bool
  updates : List (Str × α)
  outcome : COutcome α
deriving DecidableEq

/-- The `update_item` calls a connector makes during `download()`, applied
in order.  A failing `update_item` raises inside `download()`: the
remaining calls are skipped and the second component is `false` (the
orchestrator's `except` then catches the exception). -/
def applyUpdates {α : Type} : SMgr α → Str → List (Str × α) → SMgr α × Bool
  | sm, _, [] => (sm, true)
  | sm, source, (i, v) :: rest =>
    match SMgr.updateItem sm source i v with
    | some sm' => applyUpdates sm' source rest
    | none => (sm, false)

/-- The `for connector in connectors` loop of `sync_all_async`: skip on
failed setup; otherwise run `download()` (its `update_item` calls mutate
the shared `StateManager`), and on a normally returned result fold
`items_synced > 0` into `updated`.  Exceptions (either escaping
`download()` or raised by `update_item`) are caught and the loop
continues. -/
def runConnLoop {α : Type} : SMgr α → Bool → List Event → List (CRun α) →
    SMgr α × Bool × List Event
  | sm, upd, tr, [] => (sm, upd, tr)
  | sm, upd, tr, c :: rest =>
    if c.setupOk then
      runConnLoop (applyUpdates sm c.cname c.updates).1
        (match c.outcome, (applyUpdates sm c.cname c.updates).2 with
          | COutcome.ok _ synced _, true => upd || decide (0 < synced)
          | _, _ => upd)
        (tr ++ [Event.setupEv c.cname true, Event.downloadEv c.cname]) rest
    else runConnLoop sm upd (tr ++ [Event.setupEv c.cname false]) rest

/-- The effective connector list: `get_enabled_connectors()` narrowed by a
truthy `connector_filter`. -/
def effConnectors {α : Type} (cs : List (CRun α)) (cfilter : List Str) : List (CRun α) :=
  let en := cs.filter (·.enabledC)
  if cfilter.isEmpty then en else en.filter (fun c => cfilter.contains c.cname)

/-- `sync_all_async(data_dir, connector_filter)`: load state, narrow the
connector list (returning early — without finalize — when it comes up
empty), run the loop, then `finalize()` once.  Returns the final
`StateManager`, the `updated` flag, and the event trace. -/
def syncAll {α : Type} (cs : List (CRun α)) (cfilter : List Str)
    (st0 : SyncState α) (now : Str) : SMgr α × Bool × List Event :=
  let cs' := effConnectors cs cfilter
  if cs'.isEmpty then (SMgr.load st0, false, [])
  else
    let r := runConnLoop (SMgr.load st0) false [] cs'
    (SMgr.finalize r.1 now, r.2.1, r.2.2 ++ [Event.finalizeEv])

/-- A connector contributed progress: setup succeeded and its returned
result had `items_synced > 0` (an exception counts as no progress). -/
def progressed {α : Type} (c : CRun α) : Bool :=
  c.setupOk && (match c.outcome with
    | COutcome.ok _ synced _ => decide (0 < synced)
    | COutcome.exn => false)

/-- The key `k` of the state object does not hold the timestamp value (it
is absent or holds an item map), so `update_item(k, ·, ·)` succeeds. -/
def notTimeAt {α : Type} (st : SyncState α) (k : Str) : Prop :=
  ∀ t, alookup st k ≠ some (SVal.time t)

/-- All `(source, itemID, itemState)` upserts performed during the run:
those of every effective connector whose setup succeeded, in order. -/
def ranUpdates {α : Type} (cs : List (CRun α)) : List (Str × Str × α) :=
  ((cs.filter (·.setupOk)).map
    (fun c => c.updates.map (fun u => (c.cname, u.1, u.2)))).flatten

/-- Overlaying a sequence of upserts onto a state object. -/
def applyAll {α : Type} : SyncState α → List (Str × Str × α) → SyncState α
  | st, [] => st
  | st, (s, i, v) :: rest => applyAll ((updateItemState st s i v).getD st) rest

end Orchestrator

end SyncSpec

namespace SyncSpec
namespace Orchestrator

theorem applyAll_append {α : Type} (a b : List (Str × Str × α)) :
    ∀ st : SyncState α, applyAll st (a ++ b) = applyAll (applyAll st a) b := by
  induction a with
  | nil => intro st; rfl
  | cons hd tl ih =>
    intro st
    obtain ⟨s, i, v⟩ := hd
    simp only [List.cons_append, applyAll]
    exact ih _

theorem updateItemState_notTime {α : Type} (st st' : SyncState α)
    (source itemID k : Str) (v : α)
    (h : updateItemState st source itemID v = some st') (hk : notTimeAt st k) :
    notTimeAt st' k := by
  by_cases hks : k = source
  · subst hks
    intro t ht
    unfold updateItemState at h
    rcases hl : alookup st k with _ | val
    · rw [hl] at h
      injection h with h
      subst h
      rw [alookup_upsert_self] at ht
      exact absurd ht (by simp)
    · rcases val with t' | m
      · exact hk t' hl
      · rw [hl] at h
        injection h with h
        subst h
        rw [alookup_upsert_self] at ht
        exact absurd ht (by simp)
  · intro t ht
    rw [updateItemState_frame_source st st' source itemID k v h hks] at ht
    exact hk t ht

theorem applyUpdates_clean {α : Type} (ups : List (Str × α)) :
    ∀ (sm : SMgr α) (source : Str), notTimeAt sm.mem source →
      (applyUpdates sm source ups).2 = true ∧
      (applyUpdates sm source ups).1.mem =
        applyAll sm.mem (ups.map (fun u => (source, u.1, u.2))) ∧
      (∀ k, notTimeAt sm.mem k → notTimeAt (applyUpdates sm source ups).1.mem k) ∧
      (sm.disk = sm.mem → (applyUpdates sm source ups).1.disk =
        (applyUpdates sm source ups).1.mem) := by
  induction ups with
  | nil =>
    intro sm source hsrc
    exact ⟨rfl, rfl, fun k hk => hk, fun h => h⟩
  | cons hd tl ih =>
    intro sm source hsrc
    obtain ⟨i, v⟩ := hd
    rcases hu : updateItemState sm.mem source i v with _ | st'
    · exfalso
      unfold updateItemState at hu
      rcases hl : alookup sm.mem source with _ | val
      · rw [hl] at hu; exact absurd hu (by simp)
      · rcases val with t | m
        · exact hsrc t hl
        · rw [hl] at hu; exact absurd hu (by simp)
    · have hstep : SMgr.updateItem sm source i v = some ⟨st', st'⟩ := by
        unfold SMgr.updateItem
        rw [hu]
        rfl
      have hmem' : notTimeAt st' source :=
        updateItemState_notTime sm.mem st' source i source v hu hsrc
      have ih' := ih ⟨st', st'⟩ source hmem'
      refine ⟨?_, ?_, ?_, ?_⟩
      · show (applyUpdates sm source ((i, v) :: tl)).2 = true
        simp only [applyUpdates, hstep]
        exact ih'.1
      · show (applyUpdates sm source ((i, v) :: tl)).1.mem = _
        simp only [applyUpdates, hstep, List.map_cons, applyAll, hu, Option.getD_some]
        exact ih'.2.1
      · intro k hk
        show notTimeAt (applyUpdates sm source ((i, v) :: tl)).1.mem k
        simp only [applyUpdates, hstep]
        exact ih'.2.2.1 k (updateItemState_notTime sm.mem st' source i k v hu hk)
      · intro _
        show (applyUpdates sm source ((i, v) :: tl)).1.disk = _
        simp only [applyUpdates, hstep]
        exact ih'.2.2.2 rfl

end Orchestrator
end SyncSpec

namespace SyncSpec
namespace Orchestrator

/-- Recogniser for the finalize event. -/
def isFinalize : Event → Bool
  | Event.finalizeEv => true
  | _ => false

/-- Number of `StateManager.finalize()` calls recorded in a trace. -/
def countFinalize (tr : List Event) : Nat := tr.countP isFinalize

theorem runConnLoop_trace {α : Type} (cs : List (CRun α)) :
    ∀ (sm : SMgr α) (upd : Bool) (tr : List Event),
      ∃ ev : List Event,
        (runConnLoop sm upd tr cs).2.2 = tr ++ ev ∧
        countFinalize ev = 0 ∧
        (∀ c ∈ cs, Event.setupEv c.cname c.setupOk ∈ ev) ∧
        (∀ c ∈ cs, c.setupOk = true → Event.downloadEv c.cname ∈ ev) := by
  induction cs with
  | nil =>
    intro sm upd tr
    exact ⟨[], by simp [runConnLoop], by simp [countFinalize], by simp, by simp⟩
  | cons c rest ih =>
    intro sm upd tr
    cases hc : c.setupOk with
    | false =>
      obtain ⟨ev, hev, hcount, hset, hdl⟩ :=
        ih sm upd (tr ++ [Event.setupEv c.cname false])
      refine ⟨Event.setupEv c.cname false :: ev, ?_, ?_, ?_, ?_⟩
      · simp only [runConnLoop, hc, Bool.false_eq_true, if_false]
        rw [hev, List.append_assoc]
        rfl
      · simpa [countFinalize, isFinalize] using hcount
      · intro c' hc'
        rcases List.mem_cons.mp hc' with h | h
        · subst h; rw [hc]; exact List.mem_cons_self _ _
        · exact List.mem_cons_of_mem _ (hset c' h)
      · intro c' hc' hok
        rcases List.mem_cons.mp hc' with h | h
        · subst h; rw [hok] at hc; exact absurd hc (by simp)
        · exact List.mem_cons_of_mem _ (hdl c' h hok)
    | true =>
      obtain ⟨ev, hev, hcount, hset, hdl⟩ :=
        ih (applyUpdates sm c.cname c.updates).1
          (match c.outcome, (applyUpdates sm c.cname c.updates).2 with
            | COutcome.ok _ synced _, true => upd || decide (0 < synced)
            | _, _ => upd)
          (tr ++ [Event.setupEv c.cname true, Event.downloadEv c.cname])
      refine ⟨Event.setupEv c.cname true :: Event.downloadEv c.cname :: ev, ?_, ?_, ?_, ?_⟩
      · simp only [runConnLoop, hc, if_true]
        rw [hev, List.append_assoc]
        rfl
      · simpa [countFinalize, isFinalize] using hcount
      · intro c' hc'
        rcases List.mem_cons.mp hc' with h | h
        · subst h; rw [hc]; exact List.mem_cons_self _ _
        · exact List.mem_cons_of_mem _ (List.mem_cons_of_mem _ (hset c' h))
      · intro c' hc' hok
        rcases List.mem_cons.mp hc' with h | h
        · subst h
          exact List.mem_cons_of_mem _ (List.mem_cons_self _ _)
        · exact List.mem_cons_of_mem _ (List.mem_cons_of_mem _ (hdl c' h hok))

theorem runConnLoop_clean {α : Type} (cs : List (CRun α)) :
    ∀ (sm : SMgr α) (upd : Bool) (tr : List Event),
      (∀ c ∈ cs, notTimeAt sm.mem c.cname) →
      (runConnLoop sm upd tr cs).1.mem = applyAll sm.mem (ranUpdates cs) ∧
      (sm.disk = sm.mem →
        (runConnLoop sm upd tr cs).1.disk = (runConnLoop sm upd tr cs).1.mem) ∧
      (runConnLoop sm upd tr cs).2.1 = (upd || cs.any progressed) := by
  induction cs with
  | nil =>
    intro sm upd tr _
    exact ⟨rfl, fun h => h, by simp [runConnLoop]⟩
  | cons c rest ih =>
    intro sm upd tr hclean
    have hcmem : notTimeAt sm.mem c.cname := hclean c (List.mem_cons_self _ _)
    cases hc : c.setupOk with
    | false =>
      have hran : ranUpdates (c :: rest) = ranUpdates rest := by
        simp [ranUpdates, List.filter, hc]
      have hprog : progressed c = false := by simp [progressed, hc]
      obtain ⟨h1, h2, h3⟩ :=
        ih sm upd (tr ++ [Event.setupEv c.cname false])
          (fun c' h => hclean c' (List.mem_cons_of_mem _ h))
      simp only [runConnLoop, hc, Bool.false_eq_true, if_false]
      exact ⟨by rw [h1, hran], h2, by rw [h3]; simp [hprog]⟩
    | true =>
      obtain ⟨hsucc, hmem, hpres, hdisk⟩ :=
        applyUpdates_clean c.updates sm c.cname hcmem
      have hran : ranUpdates (c :: rest) =
          c.updates.map (fun u => (c.cname, u.1, u.2)) ++ ranUpdates rest := by
        simp [ranUpdates, List.filter, hc]
      obtain ⟨h1, h2, h3⟩ :=
        ih (applyUpdates sm c.cname c.updates).1
          (match c.outcome, (applyUpdates sm c.cname c.updates).2 with
            | COutcome.ok _ synced _, true => upd || decide (0 < synced)
            | _, _ => upd)
          (tr ++ [Event.setupEv c.cname true, Event.downloadEv c.cname])
          (fun c' h => hpres c'.cname (hclean c' (List.mem_cons_of_mem _ h)))
      simp only [runConnLoop, hc, if_true]
      refine ⟨?_, ?_, ?_⟩
      · rw [h1, hmem, hran, applyAll_append]
      · intro hd
        exact h2 (hdisk hd)
      · rw [h3, hsucc]
        have hmatch : (match c.outcome, true with
            | COutcome.ok _ synced _, true => upd || decide (0 < synced)
            | _, _ => upd) = (upd || progressed c) := by
          rcases hco : c.outcome with ⟨ret, synced, skipped⟩ | _
          · simp [progressed, hc, hco]
          · simp [progressed, hc, hco]
        rw [hmatch, Bool.or_assoc]
        simp [List.any_cons]

end Orchestrator
end SyncSpec

namespace SyncSpec
namespace Orchestrator

/-- C3 (counterexample): invoking `sync_all` when no connectors are
enabled (or none survive the name filter) returns early, so
`StateManager.finalize` is called zero times — not exactly once — for
that invocation. -/
theorem C3_counterexample :
    countFinalize (syncAll ([] : List (CRun Unit)) [] [] (str "t")).2.2 = 0 ∧
    (0 : Nat) ≠ 1 := by
  exact ⟨rfl, by decide⟩

/-- C3 (amended): whenever the effective connector list — enabled
connectors, narrowed by the filter — is nonempty, `sync_all` calls
`StateManager.finalize` exactly once, after all connectors (successful or
failed) have been attempted: the run's single finalize event closes the
trace and is preceded by a setup event for every effective connector.
(When the effective list is empty, `sync_all` returns early without
finalizing; see the counterexample.) -/
theorem C3_finalize_once {α : Type} (cs : List (CRun α)) (cfilter : List Str)
    (st0 : SyncState α) (now : Str) (hne : effConnectors cs cfilter ≠ []) :
    countFinalize (syncAll cs cfilter st0 now).2.2 = 1 ∧
    ∃ pre : List Event,
      (syncAll cs cfilter st0 now).2.2 = pre ++ [Event.finalizeEv] ∧
      countFinalize pre = 0 ∧
      ∀ c ∈ effConnectors cs cfilter, Event.setupEv c.cname c.setupOk ∈ pre := by
  obtain ⟨ev, hev, hcount, hset, _⟩ :=
    runConnLoop_trace (effConnectors cs cfilter) (SMgr.load st0) false []
  have hemp : (effConnectors cs cfilter).isEmpty = false := by
    cases h : effConnectors cs cfilter with
    | nil => exact absurd h hne
    | cons a l => rfl
  have htr : (syncAll cs cfilter st0 now).2.2 =
      (runConnLoop (SMgr.load st0) false [] (effConnectors cs cfilter)).2.2 ++
        [Event.finalizeEv] := by
    simp only [syncAll, hemp, Bool.false_eq_true, if_false]
  rw [htr, hev, List.nil_append]
  constructor
  · simp [countFinalize, List.countP_append, isFinalize] at hcount ⊢
    exact hcount
  · exact ⟨ev, rfl, hcount, hset⟩

/-- Witness for the amended C3 at a concrete run: one enabled connector
that syncs one item. -/
theorem C3_finalize_once_witness :
    countFinalize (syncAll
      [⟨str "slack", true, true, [], COutcome.ok [] 1 0⟩]
      ([] : List Str) ([] : SyncState Unit) (str "t")).2.2 = 1 :=
  (C3_finalize_once
    [⟨str "slack", true, true, [], COutcome.ok [] 1 0⟩]
    ([] : List Str) ([] : SyncState Unit) (str "t") (by decide)).1

/-- C4: an exception escaping one connector's `download()` is caught by the
orchestrator and treated as zero progress for that connector, every other
effective connector still runs (each one with successful setup gets a
download event in the trace), and `sync_all` returns the OR over the
effective connectors of `items_synced > 0`.  The hypothesis — no effective
connector's name-key currently holds the `last_sync` timestamp value —
holds for every real connector name. -/
theorem C4_error_isolation {α : Type} (cs : List (CRun α)) (cfilter : List Str)
    (st0 : SyncState α) (now : Str)
    (hclean : ∀ c ∈ effConnectors cs cfilter, notTimeAt st0 c.cname) :
    (syncAll cs cfilter st0 now).2.1 = (effConnectors cs cfilter).any progressed ∧
    (∀ c ∈ effConnectors cs cfilter, c.setupOk = true →
      Event.downloadEv c.cname ∈ (syncAll cs cfilter st0 now).2.2) := by
  cases hemp : (effConnectors cs cfilter).isEmpty with
  | true =>
    have h0 : effConnectors cs cfilter = [] := List.isEmpty_iff.mp hemp
    rw [h0]
    simp only [syncAll, hemp, if_true]
    exact ⟨rfl, by intro c hc; exact absurd hc (List.not_mem_nil c)⟩
  | false =>
    obtain ⟨_, _, hupd⟩ :=
      runConnLoop_clean (effConnectors cs cfilter) (SMgr.load st0) false [] hclean
    obtain ⟨ev, hev, _, _, hdl⟩ :=
      runConnLoop_trace (effConnectors cs cfilter) (SMgr.load st0) false []
    constructor
    · show (syncAll cs cfilter st0 now).2.1 = _
      simp only [syncAll, hemp, Bool.false_eq_true, if_false]
      rw [hupd, Bool.false_or]
    · intro c hc hok
      show Event.downloadEv c.cname ∈ (syncAll cs cfilter st0 now).2.2
      simp only [syncAll, hemp, Bool.false_eq_true, if_false]
      rw [hev, List.nil_append]
      exact List.mem_append_left _ (hdl c hc hok)

/-- Witness for C4: connector `a` raises, connector `b` returns two synced
items; the run reports `updated = true` (the OR) and still downloads `b`. -/
theorem C4_error_isolation_witness :
    (syncAll [⟨str "a", true, true, [], COutcome.exn⟩,
              ⟨str "b", true, true, [], COutcome.ok [] 2 0⟩]
      ([] : List Str) ([] : SyncState Unit) (str "t")).2.1 = true ∧
    Event.downloadEv (str "b") ∈
      (syncAll [⟨str "a", true, true, [], COutcome.exn⟩,
                ⟨str "b", true, true, [], COutcome.ok [] 2 0⟩]
        ([] : List Str) ([] : SyncState Unit) (str "t")).2.2 := by
  have h := C4_error_isolation
    [⟨str "a", true, true, [], COutcome.exn⟩,
     ⟨str "b", true, true, [], COutcome.ok [] 2 0⟩]
    ([] : List Str) ([] : SyncState Unit) (str "t")
    (by intro c hc t ht; simp [alookup] at ht)
  constructor
  · rw [h.1]; decide
  · exact h.2 ⟨str "b", true, true, [], COutcome.ok [] 2 0⟩ (by decide) rfl

/-- Run-level state shape: under the same cleanliness hypothesis, the final
in-memory state is the loaded state overlaid with all `update_item` upserts
of the run plus the finalize timestamp, and the state file holds exactly
that object. -/
theorem syncAll_state_clean {α : Type} (cs : List (CRun α)) (cfilter : List Str)
    (st0 : SyncState α) (now : Str)
    (hclean : ∀ c ∈ effConnectors cs cfilter, notTimeAt st0 c.cname)
    (hne : effConnectors cs cfilter ≠ []) :
    (syncAll cs cfilter st0 now).1.mem =
      finalizeState (applyAll st0 (ranUpdates (effConnectors cs cfilter))) now ∧
    (syncAll cs cfilter st0 now).1.disk = (syncAll cs cfilter st0 now).1.mem := by
  have hemp : (effConnectors cs cfilter).isEmpty = false := by
    cases h : effConnectors cs cfilter with
    | nil => exact absurd h hne
    | cons a l => rfl
  obtain ⟨hmem, _, _⟩ :=
    runConnLoop_clean (effConnectors cs cfilter) (SMgr.load st0) false [] hclean
  constructor
  · show (syncAll cs cfilter st0 now).1.mem = _
    simp only [syncAll, hemp, Bool.false_eq_true, if_false, SMgr.finalize]
    rw [hmem]
    rfl
  · show (syncAll cs cfilter st0 now).1.disk = _
    simp only [syncAll, hemp, Bool.false_eq_true, if_false, SMgr.finalize]

end Orchestrator
end SyncSpec

namespace SyncSpec
namespace GDrive

/-!
## DocConnector folder exclusion (`src/sync/connectors/gdrive.py`)

`_is_in_excluded_folder` matches each lowercased excluded pattern against
the document's resolved lowercased folder path: equality, `startswith
(pattern + "/")`, or an occurrence of `"/" + pattern` found by Python
`str.find` (first occurrence) whose remainder is empty or begins with
`/`.
-/

/-- Python `hay.startswith(needle)`. -/
def beginsWith : Str → Str → Bool
  | [], _ => true
  | _ :: _, [] => false
  | a :: as, b :: bs => a == b && beginsWith as bs

/-- Python `hay.find(needle)`: index of the first occurrence, `none` when
absent (`-1` in Python; the call sites guard with `needle in hay`). -/
def findSub (needle : Str) : Str → Option Nat
  | [] => if beginsWith needle [] then some 0 else none
  | c :: t =>
    if beginsWith needle (c :: t) then some 0
    else (findSub needle t).map (· + 1)

/-- One iteration of the pattern loop in `_is_in_excluded_folder`
(gdrive.py lines 507–519), for one lowercased pattern `e` against the
lowercased resolved path `p`. -/
def pathMatchesExcluded (e p : Str) : Bool :=
  (e == p) ||
  beginsWith (e ++ [sep]) p ||
  (match findSub (sep :: e) p with
   | some idx =>
     (List.drop (idx + e.length + 1) p == ([] : Str)) ||
     beginsWith [sep] (List.drop (idx + e.length + 1) p)
   | none => false)

/-- Spec-side notion (from the spec's words): the pattern occurs in the
path starting at index `i` as a full path segment — preceded by start of
string or `/`, followed by end of string or `/`. -/
def alignedAt (e p : Str) (i : Nat) : Bool :=
  beginsWith e (List.drop i p) &&
  (decide (i = 0) || (List.head? (List.drop (i - 1) p) == some sep)) &&
  (decide (List.drop (i + e.length) p = ([] : Str)) ||
   (List.head? (List.drop (i + e.length) p) == some sep))

/-- Spec-side notion: some segment-aligned occurrence of the pattern
exists in the path. -/
def hasSegmentOccurrence (e p : Str) : Bool :=
  (List.range (p.length + 1)).any (fun i => alignedAt e p i)

theorem beginsWith_iff (n : Str) : ∀ h : Str,
    beginsWith n h = true ↔ ∃ t, h = n ++ t := by
  induction n with
  | nil =>
    intro h
    simp [beginsWith]
  | cons a as ih =>
    intro h
    cases h with
    | nil =>
      simp [beginsWith]
    | cons b bs =>
      simp only [beginsWith, Bool.and_eq_true, beq_iff_eq, ih bs, List.cons_append,
        List.cons.injEq]
      constructor
      · rintro ⟨rfl, t, rfl⟩
        exact ⟨t, rfl, rfl⟩
      · rintro ⟨t, rfl, rfl⟩
        exact ⟨rfl, t, rfl⟩

theorem beginsWith_refl (l : Str) : beginsWith l l = true :=
  (beginsWith_iff l l).mpr ⟨[], by simp⟩

theorem beginsWith_ne_nil (a : Char) (as h : Str)
    (hb : beginsWith (a :: as) h = true) : h ≠ [] := by
  obtain ⟨t, rfl⟩ := (beginsWith_iff _ _).mp hb
  simp

theorem findSub_sound (n : Str) : ∀ (h : Str) (i : Nat),
    findSub n h = some i → beginsWith n (List.drop i h) = true := by
  intro h
  induction h with
  | nil =>
    intro i hf
    unfold findSub at hf
    by_cases hb : beginsWith n [] = true
    · rw [if_pos hb] at hf
      injection hf with hf
      subst hf
      simpa using hb
    · rw [if_neg hb] at hf
      exact absurd hf (by simp)
  | cons c t ih =>
    intro i hf
    unfold findSub at hf
    by_cases hb : beginsWith n (c :: t) = true
    · rw [if_pos hb] at hf
      injection hf with hf
      subst hf
      simpa using hb
    · rw [if_neg hb] at hf
      rcases hrec : findSub n t with _ | j
      · rw [hrec] at hf; exact absurd hf (by simp)
      · rw [hrec] at hf
        injection hf with hf
        subst hf
        simpa using ih j hrec

end GDrive
end SyncSpec

namespace SyncSpec
namespace GDrive

theorem idx_lt_of_drop_cons (p : Str) (idx : Nat) (c : Char) (t : Str)
    (h : List.drop idx p = c :: t) : idx < p.length := by
  by_contra hle
  push_neg at hle
  rw [List.drop_eq_nil_of_le hle] at h
  exact List.noConfusion h

theorem pathMatches_sound (e p : Str)
    (h : pathMatchesExcluded e p = true) : hasSegmentOccurrence e p = true := by
  unfold pathMatchesExcluded at h
  simp only [Bool.or_eq_true] at h
  rcases h with (h | h) | h
  · -- equality branch
    have he : e = p := by simpa using h
    subst he
    unfold hasSegmentOccurrence
    rw [List.any_eq_true]
    refine ⟨0, List.mem_range.mpr (Nat.succ_pos _), ?_⟩
    unfold alignedAt
    simp [beginsWith_refl, List.drop_length]
  · -- startswith (e ++ "/") branch
    obtain ⟨t, hp⟩ := (beginsWith_iff _ _).mp h
    have hp' : p = e ++ sep :: t := by simpa using hp
    subst hp'
    unfold hasSegmentOccurrence
    rw [List.any_eq_true]
    refine ⟨0, List.mem_range.mpr (Nat.succ_pos _), ?_⟩
    unfold alignedAt
    have h1 : beginsWith e (e ++ sep :: t) = true :=
      (beginsWith_iff _ _).mpr ⟨sep :: t, rfl⟩
    have h2 : List.drop (0 + e.length) (e ++ sep :: t) = sep :: t := by
      rw [Nat.zero_add, List.drop_left]
    simp [h1, h2]
  · -- find("/"+e) branch
    rcases hf : findSub (sep :: e) p with _ | idx
    · rw [hf] at h; exact absurd h (by simp)
    · rw [hf] at h
      simp only [Bool.or_eq_true, beq_iff_eq] at h
      have hocc := findSub_sound (sep :: e) p idx hf
      obtain ⟨t, hdrop⟩ := (beginsWith_iff _ _).mp hocc
      have hdrop' : List.drop idx p = sep :: (e ++ t) := by simpa using hdrop
      have hlt : idx < p.length := idx_lt_of_drop_cons p idx sep (e ++ t) hdrop'
      unfold hasSegmentOccurrence
      rw [List.any_eq_true]
      refine ⟨idx + 1, List.mem_range.mpr (by omega), ?_⟩
      unfold alignedAt
      have hd1 : List.drop (idx + 1) p = e ++ t := by
        have h2 : List.drop 1 (List.drop idx p) = e ++ t := by rw [hdrop']; rfl
        rw [List.drop_drop] at h2
        exact h2
      have hb : beginsWith e (List.drop (idx + 1) p) = true := by
        rw [hd1]; exact (beginsWith_iff _ _).mpr ⟨t, rfl⟩
      have hpred : List.head? (List.drop (idx + 1 - 1) p) = some sep := by
        rw [Nat.add_sub_cancel, hdrop']
        rfl
      have hidx : idx + 1 + e.length = idx + e.length + 1 := by omega
      rcases h with h | h
      · have hpost : List.drop (idx + 1 + e.length) p = [] := by
          rw [hidx]; exact h
        rw [hb, hpred, hpost]
        simp
      · have hpost : beginsWith [sep] (List.drop (idx + 1 + e.length) p) = true := by
          rw [hidx]; exact h
        obtain ⟨t', ht'⟩ := (beginsWith_iff _ _).mp hpost
        rw [hb, hpred, ht']
        simp

theorem pathMatches_complete_zero (e p : Str)
    (h : alignedAt e p 0 = true) : pathMatchesExcluded e p = true := by
  unfold alignedAt at h
  simp only [Bool.and_eq_true, Bool.or_eq_true, decide_eq_true_eq, beq_iff_eq] at h
  obtain ⟨⟨hb, _⟩, hpost⟩ := h
  obtain ⟨t, rfl⟩ := (beginsWith_iff _ _).mp hb
  have hdt : List.drop (0 + e.length) (e ++ t) = t := by
    rw [Nat.zero_add, List.drop_left]
  unfold pathMatchesExcluded
  simp only [Bool.or_eq_true]
  rcases hpost with hpost | hpost
  · rw [hdt] at hpost
    subst hpost
    left; left
    simp
  · rw [hdt] at hpost
    cases t with
    | nil => exact absurd hpost (by simp)
    | cons c t' =>
      have hc : c = sep := by simpa using hpost
      subst hc
      left; right
      exact (beginsWith_iff _ _).mpr ⟨t', by simp⟩

theorem pathMatches_complete_found (e p : Str) (i : Nat)
    (hf : findSub (sep :: e) p = some i)
    (h : alignedAt e p (i + 1) = true) : pathMatchesExcluded e p = true := by
  unfold alignedAt at h
  simp only [Bool.and_eq_true, Bool.or_eq_true, decide_eq_true_eq, beq_iff_eq] at h
  obtain ⟨⟨_, _⟩, hpost⟩ := h
  unfold pathMatchesExcluded
  simp only [Bool.or_eq_true, hf]
  right
  have hidx : i + 1 + e.length = i + e.length + 1 := by omega
  rw [hidx] at hpost
  rcases hpost with hpost | hpost
  · left; simpa using hpost
  · right
    rcases hh : List.drop (i + e.length + 1) p with _ | ⟨c, t⟩
    · rw [hh] at hpost; exact absurd hpost (by simp)
    · rw [hh] at hpost
      have hc : c = sep := by simpa using hpost
      subst hc
      exact (beginsWith_iff _ _).mpr ⟨t, by simp⟩

end GDrive
end SyncSpec

namespace SyncSpec
namespace GDrive

/-- C5 (counterexample): for pattern `archive` and resolved path
`x/archivey/archive`, the pattern occurs segment-aligned (the final
segment), yet `_is_in_excluded_folder`'s check rejects: Python `find`
returns only the first occurrence of `/archive` — the one inside
`/archivey` — whose remainder `y/archive` is not a segment boundary.  So
"an occurrence that does align always excludes" is false. -/
theorem C5_counterexample :
    hasSegmentOccurrence (str "archive") (str "x/archivey/archive") = true ∧
    pathMatchesExcluded (str "archive") (str "x/archivey/archive") = false := by
  constructor
  · decide
  · decide

/-- C5 (amended): a pattern excludes only segment-aligned occurrences —
whenever `_is_in_excluded_folder`'s per-pattern check accepts, the pattern
occurs in the path as a full path segment (so non-aligned substring
occurrences never exclude); conversely an aligned occurrence excludes
when it is at the start of the path, or when it is the occurrence Python
`find` locates, i.e. the first occurrence of `"/" + pattern` (in
particular whenever the pattern occurs only once).  The spec's concrete
examples all hold: `archive` matches `projects/archive` and
`archive/2024` but not `myarchive` or `archives`. -/
theorem C5_segment_matching :
    (∀ e p : Str, pathMatchesExcluded e p = true → hasSegmentOccurrence e p = true) ∧
    (∀ e p : Str, alignedAt e p 0 = true → pathMatchesExcluded e p = true) ∧
    (∀ (e p : Str) (i : Nat), findSub (sep :: e) p = some i →
      alignedAt e p (i + 1) = true → pathMatchesExcluded e p = true) ∧
    (pathMatchesExcluded (str "archive") (str "projects/archive") = true ∧
     pathMatchesExcluded (str "archive") (str "archive/2024") = true ∧
     pathMatchesExcluded (str "archive") (str "myarchive") = false ∧
     pathMatchesExcluded (str "archive") (str "archives") = false) := by
  refine ⟨pathMatches_sound, pathMatches_complete_zero,
    pathMatches_complete_found, ?_, ?_, ?_, ?_⟩
  · decide
  · decide
  · decide
  · decide

/-- Witness for C5 at concrete inputs: soundness applied to
`projects/archive/2024` (which the check accepts) yields a segment-aligned
occurrence, and start-of-path completeness applied to `archive/2024`
yields acceptance. -/
theorem C5_segment_matching_witness :
    hasSegmentOccurrence (str "archive") (str "projects/archive/2024") = true ∧
    pathMatchesExcluded (str "archive") (str "archive/2024") = true := by
  constructor
  · exact C5_segment_matching.1 (str "archive") (str "projects/archive/2024") (by decide)
  · exact C5_segment_matching.2.1 (str "archive") (str "archive/2024") (by decide)

end GDrive
end SyncSpec

namespace SyncSpec
namespace GDrive

/-- One entry of the per-run folder cache: `{name, parents}` as stored by
`_build_folder_cache`. -/
structure FolderInfo where
  fname : Str
  parents : List Str
deriving DecidableEq

/-- The folder cache `id -> {name, parents}`. -/
abbrev FolderCache := List (Str × FolderInfo)

theorem alookup_mem_keys {β : Type} (l : List (Str × β)) (k : Str) (v : β)
    (h : alookup l k = some v) : k ∈ l.map Prod.fst := by
  induction l with
  | nil => simp [alookup] at h
  | cons hd tl ih =>
    obtain ⟨k', v'⟩ := hd
    by_cases hk : k' = k
    · subst hk
      rw [List.map_cons]
      exact List.mem_cons_self _ _
    · simp only [alookup, if_neg hk] at h
      rw [List.map_cons]
      exact List.mem_cons_of_mem _ (ih h)

theorem filter_imp_length_le (p q : Str → Bool)
    (himp : ∀ k, p k = true → q k = true) :
    ∀ t : List Str, (t.filter p).length ≤ (t.filter q).length := by
  intro t
  induction t with
  | nil => simp
  | cons a t ih =>
    rw [List.filter_cons, List.filter_cons]
    cases hp : p a
    · cases hq : q a
      · simpa using ih
      · simp only [if_pos rfl, Bool.false_eq_true, if_false, List.length_cons]
        exact Nat.le_succ_of_le ih
    · rw [himp a hp]
      simpa using Nat.succ_le_succ ih

/-- Number of cache keys not yet in the visited set: the termination
measure of the guarded folder walks. -/
def unseenCount (cache : FolderCache) (seen : List Str) : Nat :=
  ((cache.map Prod.fst).filter (fun k => decide (k ∉ seen))).length

theorem unseenCount_lt (cache : FolderCache) (seen : List Str) (fid : Str)
    (hmem : fid ∈ cache.map Prod.fst) (hno : fid ∉ seen) :
    unseenCount cache (fid :: seen) < unseenCount cache seen := by
  unfold unseenCount
  have himp : ∀ k : Str, decide (k ∉ fid :: seen) = true →
      decide (k ∉ seen) = true := by
    intro k hk
    simp only [decide_eq_true_eq, List.mem_cons, not_or] at hk ⊢
    exact hk.2
  revert hmem
  induction (cache.map Prod.fst) with
  | nil => intro hmem; simp at hmem
  | cons a t ih =>
    intro hmem
    rw [List.filter_cons, List.filter_cons]
    rcases List.mem_cons.mp hmem with rfl | hat
    · have h1 : decide (fid ∉ fid :: seen) = false := by simp
      have h2 : decide (fid ∉ seen) = true := by simpa using hno
      rw [h1, h2]
      simp only [Bool.false_eq_true, if_false, if_pos rfl, List.length_cons]
      exact Nat.lt_succ_of_le (filter_imp_length_le _ _ himp t)
    · cases hd2 : decide (a ∉ seen)
      · have hd1 : decide (a ∉ fid :: seen) = false := by
          simp only [decide_eq_false_iff_not, Decidable.not_not] at hd2 ⊢
          exact List.mem_cons_of_mem _ hd2
        rw [hd1]
        simpa using ih hat
      · cases hd1 : decide (a ∉ fid :: seen)
        · simp only [Bool.false_eq_true, if_false, if_pos rfl, List.length_cons]
          exact Nat.lt_succ_of_lt (ih hat)
        · simp only [if_pos rfl, List.length_cons]
          exact Nat.succ_lt_succ (ih hat)

/-- `_resolve_folder_path(folder_id, folder_cache, seen)` (gdrive.py lines
436–459): resolve the full `/`-joined folder path by walking the
first-parent chain, guarded by the visited set; returns the empty sentinel
on a revisit (cycle detection) or unknown folder. -/
def resolveFolderPath (fid : Str) (cache : FolderCache) (seen : List Str) : Str :=
  if h : fid ∈ seen then []
  else
    match halk : alookup cache fid with
    | none => []
    | some info =>
      match info.parents with
      | [] => info.fname
      | p :: _ =>
        let pp := resolveFolderPath p cache (fid :: seen)
        if pp = [] then info.fname else pp ++ sep :: info.fname
termination_by unseenCount cache seen
decreasing_by
  exact unseenCount_lt cache seen fid (alookup_mem_keys cache fid info halk) h

/-- `_get_folder_ancestry(folder_id, folder_cache, seen)` (gdrive.py lines
462–475): all folder IDs on the first-parent chain including `fid` itself,
guarded by the visited set. -/
def getFolderAncestry (fid : Str) (cache : FolderCache) (seen : List Str) : List Str :=
  if h : fid ∈ seen then []
  else
    match halk : alookup cache fid with
    | none => []
    | some info =>
      match info.parents with
      | [] => [fid]
      | p :: _ => fid :: getFolderAncestry p cache (fid :: seen)
termination_by unseenCount cache seen
decreasing_by
  exact unseenCount_lt cache seen fid (alookup_mem_keys cache fid info halk) h

end GDrive
end SyncSpec

namespace SyncSpec
namespace GDrive

theorem getFolderAncestry_of_seen (fid : Str) (cache : FolderCache)
    (seen : List Str) (hs : fid ∈ seen) : getFolderAncestry fid cache seen = [] := by
  rw [getFolderAncestry]
  simp [hs]

theorem getFolderAncestry_of_none (fid : Str) (cache : FolderCache)
    (seen : List Str) (hs : fid ∉ seen) (h : alookup cache fid = none) :
    getFolderAncestry fid cache seen = [] := by
  rw [getFolderAncestry, dif_neg hs]
  split
  · rfl
  · next info halk => rw [h] at halk; simp at halk

theorem getFolderAncestry_of_leaf (fid : Str) (cache : FolderCache)
    (seen : List Str) (info : FolderInfo) (hs : fid ∉ seen)
    (h : alookup cache fid = some info) (hp : info.parents = []) :
    getFolderAncestry fid cache seen = [fid] := by
  rw [getFolderAncestry, dif_neg hs]
  split
  · next halk => rw [h] at halk; simp at halk
  · next info' halk =>
      rw [h] at halk
      injection halk with halk
      subst halk
      simp [hp]

theorem getFolderAncestry_of_parent (fid : Str) (cache : FolderCache)
    (seen : List Str) (info : FolderInfo) (p : Str) (ps : List Str)
    (hs : fid ∉ seen) (h : alookup cache fid = some info)
    (hp : info.parents = p :: ps) :
    getFolderAncestry fid cache seen = fid :: getFolderAncestry p cache (fid :: seen) := by
  rw [getFolderAncestry, dif_neg hs]
  split
  · next halk => rw [h] at halk; simp at halk
  · next info' halk =>
      rw [h] at halk
      injection halk with halk
      subst halk
      simp [hp]

theorem resolveFolderPath_of_seen (fid : Str) (cache : FolderCache)
    (seen : List Str) (hs : fid ∈ seen) : resolveFolderPath fid cache seen = [] := by
  rw [resolveFolderPath]
  simp [hs]

theorem resolveFolderPath_of_none (fid : Str) (cache : FolderCache)
    (seen : List Str) (hs : fid ∉ seen) (h : alookup cache fid = none) :
    resolveFolderPath fid cache seen = [] := by
  rw [resolveFolderPath, dif_neg hs]
  split
  · rfl
  · next info halk => rw [h] at halk; simp at halk

theorem resolveFolderPath_of_root (fid : Str) (cache : FolderCache)
    (seen : List Str) (info : FolderInfo) (hs : fid ∉ seen)
    (h : alookup cache fid = some info) (hp : info.parents = []) :
    resolveFolderPath fid cache seen = info.fname := by
  rw [resolveFolderPath, dif_neg hs]
  split
  · next halk => rw [h] at halk; simp at halk
  · next info' halk =>
      rw [h] at halk
      injection halk with halk
      subst halk
      simp [hp]

theorem resolveFolderPath_of_parent (fid : Str) (cache : FolderCache)
    (seen : List Str) (info : FolderInfo) (p : Str) (ps : List Str)
    (hs : fid ∉ seen) (h : alookup cache fid = some info)
    (hp : info.parents = p :: ps) :
    resolveFolderPath fid cache seen =
      (if resolveFolderPath p cache (fid :: seen) = [] then info.fname
       else resolveFolderPath p cache (fid :: seen) ++ sep :: info.fname) := by
  rw [resolveFolderPath, dif_neg hs]
  split
  · next halk => rw [h] at halk; simp at halk
  · next info' halk =>
      rw [h] at halk
      injection halk with halk
      subst halk
      simp [hp]

theorem getFolderAncestry_invariant (cache : FolderCache) :
    ∀ (n : Nat) (seen : List Str) (fid : Str), unseenCount cache seen ≤ n →
      ((getFolderAncestry fid cache seen).Nodup ∧
       (∀ x ∈ getFolderAncestry fid cache seen, x ∉ seen) ∧
       (∀ x ∈ getFolderAncestry fid cache seen, x ∈ cache.map Prod.fst)) := by
  intro n
  induction n with
  | zero =>
    intro seen fid hn
    by_cases hs : fid ∈ seen
    · rw [getFolderAncestry_of_seen _ _ _ hs]
      exact ⟨List.nodup_nil, fun x hx => absurd hx (List.not_mem_nil x),
        fun x hx => absurd hx (List.not_mem_nil x)⟩
    rcases h : alookup cache fid with _ | info
    · rw [getFolderAncestry_of_none _ _ _ hs h]
      exact ⟨List.nodup_nil, fun x hx => absurd hx (List.not_mem_nil x),
        fun x hx => absurd hx (List.not_mem_nil x)⟩
    rcases hp : info.parents with _ | ⟨p, ps⟩
    · rw [getFolderAncestry_of_leaf _ _ _ _ hs h hp]
      refine ⟨List.nodup_singleton _, ?_, ?_⟩
      · intro x hx; rw [List.mem_singleton] at hx; subst hx; exact hs
      · intro x hx; rw [List.mem_singleton] at hx; subst hx
        exact alookup_mem_keys _ _ _ h
    · exfalso
      have := unseenCount_lt cache seen fid (alookup_mem_keys _ _ _ h) hs
      omega
  | succ n ih =>
    intro seen fid hn
    by_cases hs : fid ∈ seen
    · rw [getFolderAncestry_of_seen _ _ _ hs]
      exact ⟨List.nodup_nil, fun x hx => absurd hx (List.not_mem_nil x),
        fun x hx => absurd hx (List.not_mem_nil x)⟩
    rcases h : alookup cache fid with _ | info
    · rw [getFolderAncestry_of_none _ _ _ hs h]
      exact ⟨List.nodup_nil, fun x hx => absurd hx (List.not_mem_nil x),
        fun x hx => absurd hx (List.not_mem_nil x)⟩
    rcases hp : info.parents with _ | ⟨p, ps⟩
    · rw [getFolderAncestry_of_leaf _ _ _ _ hs h hp]
      refine ⟨List.nodup_singleton _, ?_, ?_⟩
      · intro x hx; rw [List.mem_singleton] at hx; subst hx; exact hs
      · intro x hx; rw [List.mem_singleton] at hx; subst hx
        exact alookup_mem_keys _ _ _ h
    · rw [getFolderAncestry_of_parent _ _ _ _ _ _ hs h hp]
      have hlt := unseenCount_lt cache seen fid (alookup_mem_keys _ _ _ h) hs
      obtain ⟨hnd, hnotin, hkeys⟩ := ih (fid :: seen) p (by omega)
      refine ⟨?_, ?_, ?_⟩
      · rw [List.nodup_cons]
        exact ⟨fun hmem => (hnotin fid hmem) (List.mem_cons_self _ _), hnd⟩
      · intro x hx
        rcases List.mem_cons.mp hx with rfl | hx'
        · exact hs
        · exact fun hxs => (hnotin x hx') (List.mem_cons_of_mem _ hxs)
      · intro x hx
        rcases List.mem_cons.mp hx with rfl | hx'
        · exact alookup_mem_keys _ _ _ h
        · exact hkeys x hx'

end GDrive
end SyncSpec

namespace SyncSpec
namespace GDrive

/-- C7: for every folder cache — including caches whose parent pointers
form a cycle — the path/ancestry walks are cycle-safe: the ancestry of any
folder repeats no folder (the visited-set guard processes each folder at
most once), its length is bounded by the cache size (termination), no
folder appears among its own proper ancestors, and on detecting a revisit
(a cycle) both walks return the empty sentinel rather than raising or
recursing forever. -/
theorem C7_cycle_safe (cache : FolderCache) (fid : Str) :
    (getFolderAncestry fid cache []).Nodup ∧
    (getFolderAncestry fid cache []).length ≤ cache.length ∧
    (∀ x ∈ (getFolderAncestry fid cache []).tail, x ≠ fid) ∧
    (∀ seen : List Str, fid ∈ seen →
      resolveFolderPath fid cache seen = [] ∧
      getFolderAncestry fid cache seen = []) := by
  obtain ⟨hnd, _, hkeys⟩ :=
    getFolderAncestry_invariant cache (unseenCount cache []) [] fid (le_refl _)
  refine ⟨hnd, ?_, ?_, ?_⟩
  · -- length bound via distinctness inside the key multiset
    have hsub : (getFolderAncestry fid cache []).toFinset ⊆
        (cache.map Prod.fst).toFinset := by
      intro x hx
      rw [List.mem_toFinset] at hx ⊢
      exact hkeys x hx
    have h1 : (getFolderAncestry fid cache []).toFinset.card =
        (getFolderAncestry fid cache []).length := List.toFinset_card_of_nodup hnd
    have h2 : (cache.map Prod.fst).toFinset.card ≤ (cache.map Prod.fst).length :=
      List.toFinset_card_le _
    have h3 := Finset.card_le_card hsub
    rw [List.length_map] at h2
    omega
  · -- no folder among its own proper ancestors
    intro x hx
    by_cases hs : fid ∈ ([] : List Str)
    · exact absurd hs (List.not_mem_nil fid)
    rcases h : alookup cache fid with _ | info
    · rw [getFolderAncestry_of_none _ _ _ hs h] at hx
      exact absurd hx (List.not_mem_nil x)
    rcases hp : info.parents with _ | ⟨p, ps⟩
    · rw [getFolderAncestry_of_leaf _ _ _ _ hs h hp] at hx
      exact absurd hx (List.not_mem_nil x)
    · rw [getFolderAncestry_of_parent _ _ _ _ _ _ hs h hp] at hx
      obtain ⟨_, hnotin, _⟩ := getFolderAncestry_invariant cache
        (unseenCount cache [fid]) [fid] p (le_refl _)
      simp only [List.tail_cons] at hx
      intro hxe
      subst hxe
      exact (hnotin x hx) (List.mem_cons_self _ _)
  · intro seen hsm
    exact ⟨resolveFolderPath_of_seen _ _ _ hsm,
      getFolderAncestry_of_seen _ _ _ hsm⟩

/-- Witness for C7 at a concrete cyclic cache `A → B → A`: a revisited
folder yields the empty sentinel for both walks. -/
theorem C7_cycle_safe_witness :
    resolveFolderPath (str "A")
      [(str "A", ⟨str "a", [str "B"]⟩), (str "B", ⟨str "b", [str "A"]⟩)]
      [str "A"] = [] ∧
    getFolderAncestry (str "A")
      [(str "A", ⟨str "a", [str "B"]⟩), (str "B", ⟨str "b", [str "A"]⟩)]
      [str "A"] = [] :=
  (C7_cycle_safe
    [(str "A", ⟨str "a", [str "B"]⟩), (str "B", ⟨str "b", [str "A"]⟩)]
    (str "A")).2.2.2 [str "A"] (by decide)

end GDrive
end SyncSpec

namespace SyncSpec
namespace GDrive

/-!
## GDriveConnector.download (`src/sync/connectors/gdrive.py`, lines 80–165)

The post-listing pipeline: exclusion filtering with retroactive artifact
deletion, the diff-token loop, the bounded-concurrency export of the
changed documents, per-item `update_item` calls, and the returned
`(new_state, ConnectorResult)`.  Content export is abstracted as
`fetch : docID → Option content` (`none` = the export failed and
`_export_and_save_doc` returned `(doc_id, None)`); the on-disk artifact
directory is an explicit list of file names.
-/

/-- One listed document (the fields `download` reads). -/
structure GDoc where
  id : Str
  name : Str
  modifiedTime : Str
  parents : List Str
deriving DecidableEq

/-- One per-document ItemState: `{"name": ..., "modified_time": ...}`. -/
structure GItemState where
  name : Str
  modified_time : Str
deriving DecidableEq

/-- Prior per-source state `state = state_manager.get("gdrive")`. -/
abbrev GState := List (Str × GItemState)

/-- `_is_in_excluded_folder(doc, folder_cache)` (lines 478–521), with the
module-level pattern/ID configuration passed explicitly. -/
def isInExcludedFolder (excludedFolders excludedIds : List Str)
    (cache : FolderCache) (doc : GDoc) : Bool :=
  if excludedFolders.isEmpty && excludedIds.isEmpty then false
  else
    match doc.parents with
    | [] => false
    | parentId :: _ =>
      if (!excludedIds.isEmpty) &&
          (getFolderAncestry parentId cache []).any
            (fun f => excludedIds.contains f) then true
      else if excludedFolders.isEmpty then false
      else
        if (resolveFolderPath parentId cache []).isEmpty then false
        else excludedFolders.any (fun e =>
          pathMatchesExcluded e (lowerStr (resolveFolderPath parentId cache [])))

/-- The filename sanitiser `"".join(c if c.isalnum() or c in " -_" else "_" ...)`. -/
def safeName (s : Str) : Str :=
  s.map (fun c => if c.isAlphanum || c == ' ' || c == '-' || c == '_' then c else '_')

/-- The artifact filename `f"{safe_name}.md"`. -/
def mdFileName (docName : Str) : Str := safeName docName ++ str ".md"

/-- The name loop of `_delete_doc_md_file`: try each candidate name, skip
empty ones, unlink the first whose file exists; returns the remaining
files and the deleted filename (if any). -/
def tryDeleteNames (files : List Str) : List Str → List Str × Option Str
  | [] => (files, none)
  | n :: rest =>
    if n.isEmpty then tryDeleteNames files rest
    else
      if files.contains (mdFileName n) then
        (files.erase (mdFileName n), some (mdFileName n))
      else tryDeleteNames files rest

/-- `_delete_doc_md_file(doc, state, output_dir)` (lines 524–542): prefer
the name stored in prior state (when truthy), fall back to the current
name. -/
def deleteDocMdFile (doc : GDoc) (state : GState) (files : List Str) :
    List Str × Option Str :=
  match alookup state doc.id with
  | some st =>
    if st.name.isEmpty then tryDeleteNames files [doc.name]
    else tryDeleteNames files [st.name, doc.name]
  | none => tryDeleteNames files [doc.name]

/-- Result of the exclusion-filter loop (lines 110–121). -/
structure FilterOut where
  docsKept : List GDoc
  filesLeft : List Str
  deletions : List Str
  excludedCount : Nat
deriving DecidableEq

/-- The exclusion-filter loop over the listed docs: excluded docs trigger
retroactive deletion and are dropped; the rest are kept in order. -/
def filterExcluded (excludedFolders excludedIds : List Str) (cache : FolderCache)
    (state : GState) : List GDoc → List Str → FilterOut
  | [], files => ⟨[], files, [], 0⟩
  | doc :: docs, files =>
    if isInExcludedFolder excludedFolders excludedIds cache doc then
      let del := deleteDocMdFile doc state files
      let out := filterExcluded excludedFolders excludedIds cache state docs del.1
      ⟨out.docsKept, out.filesLeft, del.2.toList ++ out.deletions,
        out.excludedCount + 1⟩
    else
      let out := filterExcluded excludedFolders excludedIds cache state docs files
      ⟨doc :: out.docsKept, out.filesLeft, out.deletions, out.excludedCount⟩

/-- The diff loop (lines 126–135): split kept docs into the carried-forward
`new_state` entries (unchanged diff token) and `docs_to_sync`. -/
def diffSplit (state : GState) : List GDoc → GState × List GDoc
  | [] => ([], [])
  | doc :: docs =>
    match alookup state doc.id with
    | some st =>
      if st.modified_time == doc.modifiedTime then
        ((doc.id, st) :: (diffSplit state docs).1, (diffSplit state docs).2)
      else ((diffSplit state docs).1, doc :: (diffSplit state docs).2)
    | none => ((diffSplit state docs).1, doc :: (diffSplit state docs).2)

/-- `doc`'s diff token is unchanged from the prior state
(`state.get(doc_id, {}).get("modified_time") == modified_time`). -/
def unchangedIn (state : GState) (d : GDoc) : Bool :=
  match alookup state d.id with
  | some st => st.modified_time == d.modifiedTime
  | none => false

/-- Everything observable about one `download()` run. -/
structure GDownload where
  newState : GState
  syncedCount : Nat
  skippedCount : Nat
  fetched : List Str
  artifacts : List (Str × Str)
  updates : List (Str × GItemState)
  deletions : List Str
  excludedCount : Nat
  filesAfter : List Str
deriving DecidableEq

/-- The `download()` pipeline after listing (lines 97–165): filter
exclusions (only when configured), diff, export each changed doc through
the pool (recording a content fetch for each), write an artifact and call
`update_item` for each successful export, and assemble `new_state` as the
carried entries overlaid with the freshly computed ones. -/
def gdriveDownload (excludedFolders excludedIds : List Str) (cache : FolderCache)
    (docs : List GDoc) (state : GState) (fetch : Str → Option Str)
    (files : List Str) : GDownload :=
  let fo :=
    if excludedFolders.isEmpty && excludedIds.isEmpty then
      (⟨docs, files, [], 0⟩ : FilterOut)
    else filterExcluded excludedFolders excludedIds cache state docs files
  let carried := (diffSplit state fo.docsKept).1
  let toSync := (diffSplit state fo.docsKept).2
  let results := toSync.map (fun d =>
    match fetch d.id with
    | none => (d, (none : Option GItemState))
    | some _ => (d, some (⟨d.name, d.modifiedTime⟩ : GItemState)))
  let syncedEntries := results.filterMap (fun r =>
    r.2.map (fun st => (r.1.id, st)))
  { newState := syncedEntries.foldl (fun ns p => upsert ns p.1 p.2) carried
    syncedCount := syncedEntries.length
    skippedCount := fo.docsKept.length - toSync.length
    fetched := toSync.map GDoc.id
    artifacts := results.filterMap (fun r =>
      r.2.map (fun _ => (r.1.id, mdFileName r.1.name)))
    updates := syncedEntries
    deletions := fo.deletions
    excludedCount := fo.excludedCount
    filesAfter := fo.filesLeft }

end GDrive
end SyncSpec


namespace SyncSpec
namespace GDrive

theorem alookup_eq_none_iff {β : Type} (l : List (Str × β)) (k : Str) :
    alookup l k = none ↔ ∀ e ∈ l, e.1 ≠ k := by
  induction l with
  | nil =>
    constructor
    · intro _ e he
      exact absurd he (List.not_mem_nil e)
    · intro _
      rfl
  | cons hd tl ih =>
    obtain ⟨k', v'⟩ := hd
    constructor
    · intro h e he
      by_cases hk : k' = k
      · simp only [alookup, if_pos hk] at h
        exact absurd h (by simp)
      · simp only [alookup, if_neg hk] at h
        rcases List.mem_cons.mp he with rfl | he'
        · exact hk
        · exact (ih.mp h) e he'
    · intro h
      have hk : k' ≠ k := h (k', v') (List.mem_cons_self _ _)
      simp only [alookup, if_neg hk]
      exact ih.mpr (fun e he => h e (List.mem_cons_of_mem _ he))

theorem alookup_foldl_upsert_notmem {β : Type} :
    ∀ (entries : List (Str × β)) (ns : List (Str × β)) (k : Str),
      (∀ e ∈ entries, e.1 ≠ k) →
      alookup (entries.foldl (fun m p => upsert m p.1 p.2) ns) k = alookup ns k := by
  intro entries
  induction entries with
  | nil => intro ns k _; rfl
  | cons hd tl ih =>
    intro ns k hk
    obtain ⟨k', v'⟩ := hd
    have hne : k ≠ k' := fun h => (hk (k', v') (List.mem_cons_self _ _)) h.symm
    rw [List.foldl_cons, ih _ k (fun e he => hk e (List.mem_cons_of_mem _ he)),
      alookup_upsert_ne _ _ _ _ hne]

theorem alookup_foldl_upsert_of_mem {β : Type} :
    ∀ (entries : List (Str × β)) (ns : List (Str × β)) (k : Str) (v : β),
      (k, v) ∈ entries → (entries.map Prod.fst).Nodup →
      alookup (entries.foldl (fun m p => upsert m p.1 p.2) ns) k = some v := by
  intro entries
  induction entries with
  | nil => intro ns k v hm _; exact absurd hm (List.not_mem_nil _)
  | cons hd tl ih =>
    intro ns k v hm hnd
    rw [List.map_cons, List.nodup_cons] at hnd
    rcases List.mem_cons.mp hm with heq | hm'
    · subst heq
      rw [List.foldl_cons,
        alookup_foldl_upsert_notmem tl _ k
          (fun e he h =>
            hnd.1 (h ▸ (List.mem_map_of_mem Prod.fst he : e.1 ∈ tl.map Prod.fst))),
        alookup_upsert_self]
    · exact ih _ k v hm' hnd.2

theorem length_filter_partition {α : Type} (p : α → Bool) :
    ∀ l : List α, (l.filter p).length + (l.filter (fun a => !p a)).length = l.length := by
  intro l
  induction l with
  | nil => rfl
  | cons a t ih =>
    rw [List.filter_cons, List.filter_cons]
    cases hp : p a <;> simp <;> omega

theorem diffSplit_cons_unchanged (state : GState) (doc : GDoc) (docs : List GDoc)
    (st : GItemState) (h : alookup state doc.id = some st)
    (ht : st.modified_time = doc.modifiedTime) :
    diffSplit state (doc :: docs) =
      ((doc.id, st) :: (diffSplit state docs).1, (diffSplit state docs).2) := by
  have hstep : diffSplit state (doc :: docs) =
      (match alookup state doc.id with
       | some st =>
         if st.modified_time == doc.modifiedTime then
           ((doc.id, st) :: (diffSplit state docs).1, (diffSplit state docs).2)
         else ((diffSplit state docs).1, doc :: (diffSplit state docs).2)
       | none => ((diffSplit state docs).1, doc :: (diffSplit state docs).2)) := rfl
  rw [hstep, h]
  simp [ht]

theorem diffSplit_cons_changed (state : GState) (doc : GDoc) (docs : List GDoc)
    (h : unchangedIn state doc = false) :
    diffSplit state (doc :: docs) =
      ((diffSplit state docs).1, doc :: (diffSplit state docs).2) := by
  have hstep : diffSplit state (doc :: docs) =
      (match alookup state doc.id with
       | some st =>
         if st.modified_time == doc.modifiedTime then
           ((doc.id, st) :: (diffSplit state docs).1, (diffSplit state docs).2)
         else ((diffSplit state docs).1, doc :: (diffSplit state docs).2)
       | none => ((diffSplit state docs).1, doc :: (diffSplit state docs).2)) := rfl
  unfold unchangedIn at h
  rw [hstep]
  rcases hl : alookup state doc.id with _ | st
  · rfl
  · rw [hl] at h
    have h' : (st.modified_time == doc.modifiedTime) = false := h
    show (if st.modified_time == doc.modifiedTime then
            ((doc.id, st) :: (diffSplit state docs).1, (diffSplit state docs).2)
          else ((diffSplit state docs).1, doc :: (diffSplit state docs).2)) = _
    rw [h']
    simp

/-- Split an arbitrary cons according to `unchangedIn`. -/
theorem unchangedIn_elim (state : GState) (doc : GDoc)
    (hu : unchangedIn state doc = true) :
    ∃ st, alookup state doc.id = some st ∧ st.modified_time = doc.modifiedTime := by
  unfold unchangedIn at hu
  rcases hl : alookup state doc.id with _ | st
  · rw [hl] at hu
    exact absurd hu (by simp)
  · rw [hl] at hu
    exact ⟨st, rfl, by simpa using hu⟩

theorem diffSplit_snd (state : GState) :
    ∀ docs : List GDoc,
      (diffSplit state docs).2 = docs.filter (fun d => !unchangedIn state d) := by
  intro docs
  induction docs with
  | nil => rfl
  | cons doc docs ih =>
    rw [List.filter_cons]
    cases hu : unchangedIn state doc
    · rw [diffSplit_cons_changed state doc docs hu]
      simpa using ih
    · obtain ⟨st, hl, ht⟩ := unchangedIn_elim state doc hu
      rw [diffSplit_cons_unchanged state doc docs st hl ht]
      simpa using ih

theorem diffSplit_fst_length (state : GState) :
    ∀ docs : List GDoc,
      (diffSplit state docs).1.length =
        (docs.filter (fun d => unchangedIn state d)).length := by
  intro docs
  induction docs with
  | nil => rfl
  | cons doc docs ih =>
    rw [List.filter_cons]
    cases hu : unchangedIn state doc
    · rw [diffSplit_cons_changed state doc docs hu]
      simpa using ih
    · obtain ⟨st, hl, ht⟩ := unchangedIn_elim state doc hu
      rw [diffSplit_cons_unchanged state doc docs st hl ht]
      simpa using ih

theorem diffSplit_carried_lookup (state : GState) :
    ∀ (docs : List GDoc) (d : GDoc), d ∈ docs → unchangedIn state d = true →
      alookup (diffSplit state docs).1 d.id = alookup state d.id := by
  intro docs
  induction docs with
  | nil => intro d hd; exact absurd hd (List.not_mem_nil _)
  | cons doc docs ih =>
    intro d hd hun
    cases hu : unchangedIn state doc
    · rw [diffSplit_cons_changed state doc docs hu]
      rcases List.mem_cons.mp hd with rfl | hd'
      · rw [hun] at hu
        exact absurd hu (by simp)
      · exact ih d hd' hun
    · obtain ⟨st, hl, ht⟩ := unchangedIn_elim state doc hu
      rw [diffSplit_cons_unchanged state doc docs st hl ht]
      by_cases hid : doc.id = d.id
      · simp only [alookup, if_pos hid]
        rw [← hid, hl]
      · simp only [alookup, if_neg hid]
        rcases List.mem_cons.mp hd with rfl | hd'
        · exact absurd rfl hid
        · exact ih d hd' hun

theorem diffSplit_fst_keys (state : GState) :
    ∀ (docs : List GDoc) (e : Str × GItemState), e ∈ (diffSplit state docs).1 →
      ∃ d ∈ docs, d.id = e.1 ∧ unchangedIn state d = true := by
  intro docs
  induction docs with
  | nil => intro e he; exact absurd he (List.not_mem_nil _)
  | cons doc docs ih =>
    intro e he
    cases hu : unchangedIn state doc
    · rw [diffSplit_cons_changed state doc docs hu] at he
      obtain ⟨d, hd, hid, hdu⟩ := ih e he
      exact ⟨d, List.mem_cons_of_mem _ hd, hid, hdu⟩
    · obtain ⟨st, hl, ht⟩ := unchangedIn_elim state doc hu
      rw [diffSplit_cons_unchanged state doc docs st hl ht] at he
      rcases List.mem_cons.mp he with rfl | he'
      · exact ⟨doc, List.mem_cons_self _ _, rfl, hu⟩
      · obtain ⟨d, hd, hid, hdu⟩ := ih e he'
        exact ⟨d, List.mem_cons_of_mem _ hd, hid, hdu⟩

end GDrive
end SyncSpec

namespace SyncSpec
namespace GitHub

/-!
## GitHubConnector.download diff partition
(`src/sync/connectors/github.py`, lines 90–131)

Repos whose stored `pushed_at` equals the freshly listed `pushedAt` are
reused from cache (including the cached `readme_summary`, with no README
fetch); the others are collected for a README fetch and count as synced.
-/

/-- One entry of the fresh repo metadata listing (no README). -/
structure RepoMeta where
  nameWithOwner : Str
  description : Str
  branchName : Str
  pushedAt : Str
  url : Str
deriving DecidableEq

/-- One entry of `state["repos"]`: `{pushed_at, readme_summary}`. -/
structure RepoState where
  pushed_at : Str
  readme_summary : Str
deriving DecidableEq

/-- The `RepoInfo` dataclass fields the partition produces. -/
structure RepoInfo where
  rname : Str
  description : Str
  default_branch : Str
  pushed_at : Str
  readme_summary : Str
  url : Str
deriving DecidableEq

/-- `prev.get("pushed_at") == pushed_at` for one repo. -/
def ghUnchanged (prev : List (Str × RepoState)) (m : RepoMeta) : Bool :=
  match alookup prev m.nameWithOwner with
  | some p => p.pushed_at == m.pushedAt
  | none => false

/-- The partition loop (lines 94–111): `(repos_to_update, repos_unchanged)`;
unchanged repos are rebuilt from cached state without fetching a README. -/
def githubDiff (prev : List (Str × RepoState)) : List RepoMeta →
    List RepoMeta × List RepoInfo
  | [] => ([], [])
  | m :: ms =>
    match alookup prev m.nameWithOwner with
    | some p =>
      if p.pushed_at == m.pushedAt then
        ((githubDiff prev ms).1,
         ⟨m.nameWithOwner, m.description, m.branchName, m.pushedAt,
          p.readme_summary, m.url⟩ :: (githubDiff prev ms).2)
      else (m :: (githubDiff prev ms).1, (githubDiff prev ms).2)
    | none => (m :: (githubDiff prev ms).1, (githubDiff prev ms).2)

theorem ghUnchanged_elim (prev : List (Str × RepoState)) (m : RepoMeta)
    (hu : ghUnchanged prev m = true) :
    ∃ p, alookup prev m.nameWithOwner = some p ∧ p.pushed_at = m.pushedAt := by
  unfold ghUnchanged at hu
  rcases hl : alookup prev m.nameWithOwner with _ | p
  · rw [hl] at hu
    exact absurd hu (by simp)
  · rw [hl] at hu
    exact ⟨p, rfl, by simpa using hu⟩

theorem githubDiff_cons_unchanged (prev : List (Str × RepoState)) (m : RepoMeta)
    (ms : List RepoMeta) (p : RepoState)
    (h : alookup prev m.nameWithOwner = some p) (ht : p.pushed_at = m.pushedAt) :
    githubDiff prev (m :: ms) =
      ((githubDiff prev ms).1,
       ⟨m.nameWithOwner, m.description, m.branchName, m.pushedAt,
        p.readme_summary, m.url⟩ :: (githubDiff prev ms).2) := by
  have hstep : githubDiff prev (m :: ms) =
      (match alookup prev m.nameWithOwner with
       | some p =>
         if p.pushed_at == m.pushedAt then
           ((githubDiff prev ms).1,
            ⟨m.nameWithOwner, m.description, m.branchName, m.pushedAt,
             p.readme_summary, m.url⟩ :: (githubDiff prev ms).2)
         else (m :: (githubDiff prev ms).1, (githubDiff prev ms).2)
       | none => (m :: (githubDiff prev ms).1, (githubDiff prev ms).2)) := rfl
  rw [hstep, h]
  simp [ht]

theorem githubDiff_cons_changed (prev : List (Str × RepoState)) (m : RepoMeta)
    (ms : List RepoMeta) (h : ghUnchanged prev m = false) :
    githubDiff prev (m :: ms) =
      (m :: (githubDiff prev ms).1, (githubDiff prev ms).2) := by
  have hstep : githubDiff prev (m :: ms) =
      (match alookup prev m.nameWithOwner with
       | some p =>
         if p.pushed_at == m.pushedAt then
           ((githubDiff prev ms).1,
            ⟨m.nameWithOwner, m.description, m.branchName, m.pushedAt,
             p.readme_summary, m.url⟩ :: (githubDiff prev ms).2)
         else (m :: (githubDiff prev ms).1, (githubDiff prev ms).2)
       | none => (m :: (githubDiff prev ms).1, (githubDiff prev ms).2)) := rfl
  unfold ghUnchanged at h
  rw [hstep]
  rcases hl : alookup prev m.nameWithOwner with _ | p
  · rfl
  · rw [hl] at h
    have h' : (p.pushed_at == m.pushedAt) = false := h
    show (if p.pushed_at == m.pushedAt then
            ((githubDiff prev ms).1,
             ⟨m.nameWithOwner, m.description, m.branchName, m.pushedAt,
              p.readme_summary, m.url⟩ :: (githubDiff prev ms).2)
          else (m :: (githubDiff prev ms).1, (githubDiff prev ms).2)) = _
    rw [h']
    simp

theorem githubDiff_fst (prev : List (Str × RepoState)) :
    ∀ ms : List RepoMeta,
      (githubDiff prev ms).1 = ms.filter (fun m => !ghUnchanged prev m) := by
  intro ms
  induction ms with
  | nil => rfl
  | cons m ms ih =>
    rw [List.filter_cons]
    cases hu : ghUnchanged prev m
    · rw [githubDiff_cons_changed prev m ms hu]
      simpa using ih
    · obtain ⟨p, hl, ht⟩ := ghUnchanged_elim prev m hu
      rw [githubDiff_cons_unchanged prev m ms p hl ht]
      simpa using ih

theorem githubDiff_snd_length (prev : List (Str × RepoState)) :
    ∀ ms : List RepoMeta,
      (githubDiff prev ms).2.length =
        (ms.filter (fun m => ghUnchanged prev m)).length := by
  intro ms
  induction ms with
  | nil => rfl
  | cons m ms ih =>
    rw [List.filter_cons]
    cases hu : ghUnchanged prev m
    · rw [githubDiff_cons_changed prev m ms hu]
      simpa using ih
    · obtain ⟨p, hl, ht⟩ := ghUnchanged_elim prev m hu
      rw [githubDiff_cons_unchanged prev m ms p hl ht]
      simpa using ih

theorem githubDiff_snd_cached (prev : List (Str × RepoState)) :
    ∀ (ms : List RepoMeta) (info : RepoInfo), info ∈ (githubDiff prev ms).2 →
      ∃ m p, m ∈ ms ∧ alookup prev m.nameWithOwner = some p ∧
        p.pushed_at = m.pushedAt ∧
        info = ⟨m.nameWithOwner, m.description, m.branchName, m.pushedAt,
                p.readme_summary, m.url⟩ := by
  intro ms
  induction ms with
  | nil => intro info h; exact absurd h (List.not_mem_nil _)
  | cons m ms ih =>
    intro info h
    cases hu : ghUnchanged prev m
    · rw [githubDiff_cons_changed prev m ms hu] at h
      obtain ⟨m', p, hm', hl, ht, he⟩ := ih info h
      exact ⟨m', p, List.mem_cons_of_mem _ hm', hl, ht, he⟩
    · obtain ⟨p, hl, ht⟩ := ghUnchanged_elim prev m hu
      rw [githubDiff_cons_unchanged prev m ms p hl ht] at h
      rcases List.mem_cons.mp h with rfl | h'
      · exact ⟨m, p, List.mem_cons_self _ _, hl, ht, rfl⟩
      · obtain ⟨m', p', hm', hl', ht', he⟩ := ih info h'
        exact ⟨m', p', List.mem_cons_of_mem _ hm', hl', ht', he⟩

end GitHub
end SyncSpec

namespace SyncSpec
namespace GDrive

theorem results_state_entries (fetch : Str → Option Str) :
    ∀ toSync : List GDoc,
      ((toSync.map (fun d =>
          match fetch d.id with
          | none => (d, (none : Option GItemState))
          | some _ => (d, some (⟨d.name, d.modifiedTime⟩ : GItemState)))).filterMap
        (fun r => r.2.map (fun st => (r.1.id, st))))
      = (toSync.filter (fun d => (fetch d.id).isSome)).map
          (fun d => (d.id, (⟨d.name, d.modifiedTime⟩ : GItemState))) := by
  intro l
  induction l with
  | nil => rfl
  | cons d t ih =>
    rw [List.map_cons, List.filterMap_cons, List.filter_cons]
    rcases hf : fetch d.id with _ | c
    · simpa [hf] using ih
    · simp [hf, ih]

theorem results_artifact_entries (fetch : Str → Option Str) :
    ∀ toSync : List GDoc,
      ((toSync.map (fun d =>
          match fetch d.id with
          | none => (d, (none : Option GItemState))
          | some _ => (d, some (⟨d.name, d.modifiedTime⟩ : GItemState)))).filterMap
        (fun r => r.2.map (fun _ => (r.1.id, mdFileName r.1.name))))
      = (toSync.filter (fun d => (fetch d.id).isSome)).map
          (fun d => (d.id, mdFileName d.name)) := by
  intro l
  induction l with
  | nil => rfl
  | cons d t ih =>
    rw [List.map_cons, List.filterMap_cons, List.filter_cons]
    rcases hf : fetch d.id with _ | c
    · simpa [hf] using ih
    · simp [hf, ih]

end GDrive
end SyncSpec

namespace SyncSpec
namespace GDrive

/-- Unfolding of `gdriveDownload` when no exclusions are configured. -/
theorem gdriveDownload_no_excl (cache : FolderCache) (docs : List GDoc)
    (state : GState) (fetch : Str → Option Str) (files : List Str) :
    gdriveDownload [] [] cache docs state fetch files =
      { newState :=
          (((diffSplit state docs).2.map (fun d =>
              match fetch d.id with
              | none => (d, (none : Option GItemState))
              | some _ => (d, some (⟨d.name, d.modifiedTime⟩ : GItemState)))).filterMap
            (fun p => p.2.map (fun st => (p.1.id, st)))).foldl
            (fun ns p => upsert ns p.1 p.2) (diffSplit state docs).1
        syncedCount :=
          (((diffSplit state docs).2.map (fun d =>
              match fetch d.id with
              | none => (d, (none : Option GItemState))
              | some _ => (d, some (⟨d.name, d.modifiedTime⟩ : GItemState)))).filterMap
            (fun p => p.2.map (fun st => (p.1.id, st)))).length
        skippedCount := docs.length - (diffSplit state docs).2.length
        fetched := (diffSplit state docs).2.map GDoc.id
        artifacts :=
          ((diffSplit state docs).2.map (fun d =>
              match fetch d.id with
              | none => (d, (none : Option GItemState))
              | some _ => (d, some (⟨d.name, d.modifiedTime⟩ : GItemState)))).filterMap
            (fun p => p.2.map (fun _ => (p.1.id, mdFileName p.1.name)))
        updates :=
          ((diffSplit state docs).2.map (fun d =>
              match fetch d.id with
              | none => (d, (none : Option GItemState))
              | some _ => (d, some (⟨d.name, d.modifiedTime⟩ : GItemState)))).filterMap
            (fun p => p.2.map (fun st => (p.1.id, st)))
        deletions := []
        excludedCount := 0
        filesAfter := files } := rfl

/-- C1: in a connector `download()` over a remote item set (no exclusions
configured, as in the spec's scenario), an item whose diff token equals
the prior state's is counted as skipped, its prior ItemState is carried
forward verbatim, and its content is never fetched; every item with a
changed or absent token is fetched, written as an artifact, recorded via
`update_item`, and counted as synced (content fetches assumed to
succeed, per the scenario).  In particular, for prior state
`{A: t1, B: t1}` and remote `{A: t1, B: t2, C: new}`, `download()`
returns `itemsSynced = 2`, `itemsSkipped = 1`, new state
`{A: t1 carried, B: t2, C: t3}`, and writes artifacts only for B and C.
Likewise the CodeHost connector's partition: repos with unchanged
`pushed_at` are skipped reusing the cached README summary, the rest are
fetched and counted as synced. -/
theorem C1_incremental_diff (cache : FolderCache) (docs : List GDoc) (state : GState)
    (fetch : Str → Option Str) (files : List Str) (r : GDownload)
    (hr : r = gdriveDownload [] [] cache docs state fetch files)
    (hnodup : (docs.map GDoc.id).Nodup)
    (hfetch : ∀ d ∈ docs, unchangedIn state d = false → (fetch d.id).isSome = true) :
    (r.skippedCount = (docs.filter (fun d => unchangedIn state d)).length ∧
     r.syncedCount = (docs.filter (fun d => !unchangedIn state d)).length ∧
     r.fetched = (docs.filter (fun d => !unchangedIn state d)).map GDoc.id ∧
     (∀ d ∈ docs, unchangedIn state d = true →
        alookup r.newState d.id = alookup state d.id ∧ d.id ∉ r.fetched) ∧
     (∀ d ∈ docs, unchangedIn state d = false →
        (d.id, mdFileName d.name) ∈ r.artifacts ∧
        (d.id, (⟨d.name, d.modifiedTime⟩ : GItemState)) ∈ r.updates ∧
        alookup r.newState d.id = some ⟨d.name, d.modifiedTime⟩)) ∧
    gdriveDownload [] [] []
      [⟨str "A", str "docA", str "t1", []⟩,
       ⟨str "B", str "docB", str "t2", []⟩,
       ⟨str "C", str "docC", str "t3", []⟩]
      [(str "A", ⟨str "docA", str "t1"⟩), (str "B", ⟨str "docB", str "t1"⟩)]
      (fun _ => some (str "body")) [] =
      { newState := [(str "A", ⟨str "docA", str "t1"⟩),
                     (str "B", ⟨str "docB", str "t2"⟩),
                     (str "C", ⟨str "docC", str "t3"⟩)]
        syncedCount := 2
        skippedCount := 1
        fetched := [str "B", str "C"]
        artifacts := [(str "B", str "docB.md"), (str "C", str "docC.md")]
        updates := [(str "B", ⟨str "docB", str "t2"⟩),
                    (str "C", ⟨str "docC", str "t3"⟩)]
        deletions := []
        excludedCount := 0
        filesAfter := [] } ∧
    (∀ (prev : List (Str × GitHub.RepoState)) (ms : List GitHub.RepoMeta),
      (GitHub.githubDiff prev ms).1 =
        ms.filter (fun m => !GitHub.ghUnchanged prev m) ∧
      (GitHub.githubDiff prev ms).2.length =
        (ms.filter (fun m => GitHub.ghUnchanged prev m)).length ∧
      (∀ info ∈ (GitHub.githubDiff prev ms).2,
        ∃ m p, m ∈ ms ∧ alookup prev m.nameWithOwner = some p ∧
          p.pushed_at = m.pushedAt ∧
          info = ⟨m.nameWithOwner, m.description, m.branchName, m.pushedAt,
                  p.readme_summary, m.url⟩)) := by
  refine ⟨?_, by decide, fun prev ms =>
    ⟨GitHub.githubDiff_fst prev ms, GitHub.githubDiff_snd_length prev ms,
      GitHub.githubDiff_snd_cached prev ms⟩⟩
  · subst hr
    rw [gdriveDownload_no_excl]
    have htoSync : (diffSplit state docs).2 =
        docs.filter (fun d => !unchangedIn state d) := diffSplit_snd state docs
    have hfetchAll : (diffSplit state docs).2.filter (fun d => (fetch d.id).isSome) =
        (diffSplit state docs).2 := by
      rw [List.filter_eq_self]
      intro d hd
      rw [htoSync] at hd
      have hm := List.mem_filter.mp hd
      exact hfetch d hm.1 (by simpa using hm.2)
    have hsyncEq :
        (((diffSplit state docs).2.map (fun d =>
            match fetch d.id with
            | none => (d, (none : Option GItemState))
            | some _ => (d, some (⟨d.name, d.modifiedTime⟩ : GItemState)))).filterMap
          (fun p => p.2.map (fun st => (p.1.id, st))))
        = (diffSplit state docs).2.map
            (fun d => (d.id, (⟨d.name, d.modifiedTime⟩ : GItemState))) := by
      rw [results_state_entries fetch, hfetchAll]
    have hartEq :
        (((diffSplit state docs).2.map (fun d =>
            match fetch d.id with
            | none => (d, (none : Option GItemState))
            | some _ => (d, some (⟨d.name, d.modifiedTime⟩ : GItemState)))).filterMap
          (fun p => p.2.map (fun _ => (p.1.id, mdFileName p.1.name))))
        = (diffSplit state docs).2.map (fun d => (d.id, mdFileName d.name)) := by
      rw [results_artifact_entries fetch, hfetchAll]
    have hinj := List.inj_on_of_nodup_map hnodup
    refine ⟨?_, ?_, ?_, ?_, ?_⟩
    · show docs.length - (diffSplit state docs).2.length = _
      rw [htoSync]
      have hpart := length_filter_partition (fun d => unchangedIn state d) docs
      omega
    · show (((diffSplit state docs).2.map (fun d =>
            match fetch d.id with
            | none => (d, (none : Option GItemState))
            | some _ => (d, some (⟨d.name, d.modifiedTime⟩ : GItemState)))).filterMap
          (fun p => p.2.map (fun st => (p.1.id, st)))).length = _
      rw [hsyncEq, List.length_map, htoSync]
    · show (diffSplit state docs).2.map GDoc.id = _
      rw [htoSync]
    · intro d hd hu
      constructor
      · show alookup
          ((((diffSplit state docs).2.map (fun d =>
              match fetch d.id with
              | none => (d, (none : Option GItemState))
              | some _ => (d, some (⟨d.name, d.modifiedTime⟩ : GItemState)))).filterMap
            (fun p => p.2.map (fun st => (p.1.id, st)))).foldl
            (fun ns p => upsert ns p.1 p.2) (diffSplit state docs).1) d.id = _
        rw [hsyncEq]
        rw [alookup_foldl_upsert_notmem _ _ _ ?hne]
        · exact diffSplit_carried_lookup state docs d hd hu
        case hne =>
          intro e he heq
          obtain ⟨d', hd'T, hd'e⟩ := List.mem_map.mp he
          rw [htoSync] at hd'T
          have hm := List.mem_filter.mp hd'T
          have hid : d'.id = d.id := by rw [← heq, ← hd'e]
          have : d' = d := hinj hm.1 hd hid
          subst this
          rw [hu] at hm
          exact absurd hm.2 (by simp)
      · show d.id ∉ (diffSplit state docs).2.map GDoc.id
        intro hmem
        rw [htoSync] at hmem
        obtain ⟨d', hd'T, hd'e⟩ := List.mem_map.mp hmem
        have hm := List.mem_filter.mp hd'T
        have : d' = d := hinj hm.1 hd hd'e
        subst this
        rw [hu] at hm
        exact absurd hm.2 (by simp)
    · intro d hd hch
      have hdT : d ∈ (diffSplit state docs).2 := by
        rw [htoSync]
        exact List.mem_filter.mpr ⟨hd, by simp [hch]⟩
      refine ⟨?_, ?_, ?_⟩
      · show (d.id, mdFileName d.name) ∈
          (((diffSplit state docs).2.map (fun d =>
              match fetch d.id with
              | none => (d, (none : Option GItemState))
              | some _ => (d, some (⟨d.name, d.modifiedTime⟩ : GItemState)))).filterMap
            (fun p => p.2.map (fun _ => (p.1.id, mdFileName p.1.name))))
        rw [hartEq]
        exact List.mem_map_of_mem _ hdT
      · show (d.id, (⟨d.name, d.modifiedTime⟩ : GItemState)) ∈
          (((diffSplit state docs).2.map (fun d =>
              match fetch d.id with
              | none => (d, (none : Option GItemState))
              | some _ => (d, some (⟨d.name, d.modifiedTime⟩ : GItemState)))).filterMap
            (fun p => p.2.map (fun st => (p.1.id, st))))
        rw [hsyncEq]
        exact List.mem_map_of_mem _ hdT
      · show alookup
          ((((diffSplit state docs).2.map (fun d =>
              match fetch d.id with
              | none => (d, (none : Option GItemState))
              | some _ => (d, some (⟨d.name, d.modifiedTime⟩ : GItemState)))).filterMap
            (fun p => p.2.map (fun st => (p.1.id, st)))).foldl
            (fun ns p => upsert ns p.1 p.2) (diffSplit state docs).1) d.id = _
        rw [hsyncEq]
        apply alookup_foldl_upsert_of_mem
        · exact List.mem_map_of_mem _ hdT
        · rw [List.map_map]
          show ((diffSplit state docs).2.map GDoc.id).Nodup
          rw [htoSync]
          exact List.Nodup.sublist ((List.filter_sublist docs).map GDoc.id) hnodup

/-- Witness for C1 at the spec's concrete scenario (nodup ids and total
fetch success hold there). -/
theorem C1_incremental_diff_witness :
    (gdriveDownload [] [] []
      [⟨str "A", str "docA", str "t1", []⟩,
       ⟨str "B", str "docB", str "t2", []⟩,
       ⟨str "C", str "docC", str "t3", []⟩]
      [(str "A", ⟨str "docA", str "t1"⟩), (str "B", ⟨str "docB", str "t1"⟩)]
      (fun _ => some (str "body")) []).skippedCount =
      ([⟨str "A", str "docA", str "t1", []⟩,
        ⟨str "B", str "docB", str "t2", []⟩,
        ⟨str "C", str "docC", str "t3", []⟩].filter (fun d =>
          unchangedIn [(str "A", ⟨str "docA", str "t1"⟩),
                       (str "B", ⟨str "docB", str "t1"⟩)] d)).length :=
  (C1_incremental_diff []
    [⟨str "A", str "docA", str "t1", []⟩,
     ⟨str "B", str "docB", str "t2", []⟩,
     ⟨str "C", str "docC", str "t3", []⟩]
    [(str "A", ⟨str "docA", str "t1"⟩), (str "B", ⟨str "docB", str "t1"⟩)]
    (fun _ => some (str "body")) [] _ rfl (by decide)
    (fun _ _ _ => rfl)).1.1

end GDrive
end SyncSpec

namespace SyncSpec
namespace GDrive

theorem tryDeleteNames_tracks (fn : Str) :
    ∀ (names : List Str) (files : List Str), fn ∈ files →
      fn ∈ (tryDeleteNames files names).1 ∨ (tryDeleteNames files names).2 = some fn := by
  intro names
  induction names with
  | nil => intro files hf; exact Or.inl hf
  | cons n rest ih =>
    intro files hf
    unfold tryDeleteNames
    by_cases hemp : n.isEmpty
    · rw [if_pos hemp]
      exact ih files hf
    · rw [if_neg hemp]
      by_cases hcont : files.contains (mdFileName n) = true
      · rw [if_pos hcont]
        by_cases heq : fn = mdFileName n
        · exact Or.inr (by rw [heq])
        · exact Or.inl ((List.mem_erase_of_ne heq).mpr hf)
      · rw [if_neg hcont]
        exact ih files hf

theorem tryDeleteNames_head (fn : Str) (n : Str) (rest : List Str) (files : List Str)
    (hemp : n.isEmpty = false) (hfn : fn = mdFileName n) (hf : fn ∈ files) :
    (tryDeleteNames files (n :: rest)).2 = some fn := by
  unfold tryDeleteNames
  rw [if_neg (by rw [hemp]; exact Bool.false_ne_true),
    if_pos (by rw [← hfn]; exact List.elem_eq_true_of_mem hf), hfn]

theorem deleteDocMdFile_tracks (doc : GDoc) (state : GState) (files : List Str)
    (fn : Str) (hf : fn ∈ files) :
    fn ∈ (deleteDocMdFile doc state files).1 ∨
    (deleteDocMdFile doc state files).2 = some fn := by
  unfold deleteDocMdFile
  rcases alookup state doc.id with _ | st
  · exact tryDeleteNames_tracks fn _ files hf
  · show fn ∈ (if st.name.isEmpty = true then tryDeleteNames files [doc.name]
        else tryDeleteNames files [st.name, doc.name]).1 ∨
      (if st.name.isEmpty = true then tryDeleteNames files [doc.name]
       else tryDeleteNames files [st.name, doc.name]).2 = some fn
    by_cases hemp : st.name.isEmpty = true
    · rw [if_pos hemp]
      exact tryDeleteNames_tracks fn _ files hf
    · rw [if_neg hemp]
      exact tryDeleteNames_tracks fn _ files hf

theorem deleteDocMdFile_stored (doc : GDoc) (state : GState) (files : List Str)
    (st : GItemState) (hlook : alookup state doc.id = some st)
    (hname : st.name ≠ []) (hf : mdFileName st.name ∈ files) :
    (deleteDocMdFile doc state files).2 = some (mdFileName st.name) := by
  unfold deleteDocMdFile
  rw [hlook]
  have hemp : st.name.isEmpty = false := by
    cases hn : st.name with
    | nil => exact absurd hn hname
    | cons a t => rfl
  show (if st.name.isEmpty = true then tryDeleteNames files [doc.name]
        else tryDeleteNames files [st.name, doc.name]).2 = some (mdFileName st.name)
  rw [if_neg (by rw [hemp]; exact Bool.false_ne_true)]
  exact tryDeleteNames_head _ _ _ _ hemp rfl hf

theorem filterExcluded_kept (eF eI : List Str) (cache : FolderCache) (state : GState) :
    ∀ (docs : List GDoc) (files : List Str) (d : GDoc),
      d ∈ (filterExcluded eF eI cache state docs files).docsKept →
      d ∈ docs ∧ isInExcludedFolder eF eI cache d = false := by
  intro docs
  induction docs with
  | nil => intro files d hd; exact absurd hd (List.not_mem_nil d)
  | cons doc docs ih =>
    intro files d hd
    unfold filterExcluded at hd
    by_cases hx : isInExcludedFolder eF eI cache doc = true
    · rw [if_pos hx] at hd
      obtain ⟨hmem, hnx⟩ := ih _ d hd
      exact ⟨List.mem_cons_of_mem _ hmem, hnx⟩
    · rw [if_neg hx] at hd
      rcases List.mem_cons.mp hd with rfl | hd'
      · exact ⟨List.mem_cons_self _ _, Bool.not_eq_true _ ▸ hx⟩
      · obtain ⟨hmem, hnx⟩ := ih _ d hd'
        exact ⟨List.mem_cons_of_mem _ hmem, hnx⟩

theorem filterExcluded_deletes (eF eI : List Str) (cache : FolderCache)
    (state : GState) (doc : GDoc) (st : GItemState)
    (hlook : alookup state doc.id = some st) (hname : st.name ≠ []) :
    ∀ (docs : List GDoc) (files : List Str), doc ∈ docs →
      isInExcludedFolder eF eI cache doc = true →
      mdFileName st.name ∈ files →
      mdFileName st.name ∈ (filterExcluded eF eI cache state docs files).deletions := by
  intro docs
  induction docs with
  | nil => intro files hd; exact absurd hd (List.not_mem_nil doc)
  | cons d docs ih =>
    intro files hmem hexcl hf
    unfold filterExcluded
    by_cases hx : isInExcludedFolder eF eI cache d = true
    · rw [if_pos hx]
      show mdFileName st.name ∈
        (deleteDocMdFile d state files).2.toList ++
          (filterExcluded eF eI cache state docs
            (deleteDocMdFile d state files).1).deletions
      rcases List.mem_cons.mp hmem with rfl | hmem'
      · rw [deleteDocMdFile_stored doc state files st hlook hname hf]
        exact List.mem_append_left _ (List.mem_singleton.mpr rfl)
      · rcases deleteDocMdFile_tracks d state files _ hf with htr | htr
        · exact List.mem_append_right _ (ih _ hmem' hexcl htr)
        · rw [htr]
          exact List.mem_append_left _ (List.mem_singleton.mpr rfl)
    · rw [if_neg hx]
      show mdFileName st.name ∈
        (filterExcluded eF eI cache state docs files).deletions
      rcases List.mem_cons.mp hmem with rfl | hmem'
      · exact absurd hexcl hx
      · exact ih _ hmem' hexcl hf

end GDrive
end SyncSpec

namespace SyncSpec
namespace GDrive

/-- Unfolding of `gdriveDownload` when exclusions are configured. -/
theorem gdriveDownload_excl (eF eI : List Str) (cache : FolderCache)
    (docs : List GDoc) (state : GState) (fetch : Str → Option Str)
    (files : List Str) (hcond : (eF.isEmpty && eI.isEmpty) = false) :
    gdriveDownload eF eI cache docs state fetch files =
      { newState :=
          (((diffSplit state
                (filterExcluded eF eI cache state docs files).docsKept).2.map (fun d =>
              match fetch d.id with
              | none => (d, (none : Option GItemState))
              | some _ => (d, some (⟨d.name, d.modifiedTime⟩ : GItemState)))).filterMap
            (fun p => p.2.map (fun st => (p.1.id, st)))).foldl
            (fun ns p => upsert ns p.1 p.2)
            (diffSplit state (filterExcluded eF eI cache state docs files).docsKept).1
        syncedCount :=
          (((diffSplit state
                (filterExcluded eF eI cache state docs files).docsKept).2.map (fun d =>
              match fetch d.id with
              | none => (d, (none : Option GItemState))
              | some _ => (d, some (⟨d.name, d.modifiedTime⟩ : GItemState)))).filterMap
            (fun p => p.2.map (fun st => (p.1.id, st)))).length
        skippedCount :=
          (filterExcluded eF eI cache state docs files).docsKept.length -
            (diffSplit state
              (filterExcluded eF eI cache state docs files).docsKept).2.length
        fetched :=
          (diffSplit state
            (filterExcluded eF eI cache state docs files).docsKept).2.map GDoc.id
        artifacts :=
          ((diffSplit state
              (filterExcluded eF eI cache state docs files).docsKept).2.map (fun d =>
              match fetch d.id with
              | none => (d, (none : Option GItemState))
              | some _ => (d, some (⟨d.name, d.modifiedTime⟩ : GItemState)))).filterMap
            (fun p => p.2.map (fun _ => (p.1.id, mdFileName p.1.name)))
        updates :=
          ((diffSplit state
              (filterExcluded eF eI cache state docs files).docsKept).2.map (fun d =>
              match fetch d.id with
              | none => (d, (none : Option GItemState))
              | some _ => (d, some (⟨d.name, d.modifiedTime⟩ : GItemState)))).filterMap
            (fun p => p.2.map (fun st => (p.1.id, st)))
        deletions := (filterExcluded eF eI cache state docs files).deletions
        excludedCount := (filterExcluded eF eI cache state docs files).excludedCount
        filesAfter := (filterExcluded eF eI cache state docs files).filesLeft } := by
  unfold gdriveDownload
  rw [hcond]
  rfl

end GDrive
end SyncSpec

namespace SyncSpec
namespace GDrive

/-- C6: a document present in the prior state whose folder now resolves
into an excluded folder has its on-disk artifact (under the name recorded
in prior state) deleted during `download()`, even though its own diff
token is unchanged; and the exclusion filter runs before the diff-token
loop, so the document is never content-fetched, never `update_item`-ed,
and absent from the returned new-state mapping. -/
theorem C6_retroactive_deletion (eF eI : List Str) (cache : FolderCache)
    (docs : List GDoc) (state : GState) (fetch : Str → Option Str)
    (files : List Str) (doc : GDoc) (st : GItemState) (r : GDownload)
    (hr : r = gdriveDownload eF eI cache docs state fetch files)
    (hmem : doc ∈ docs)
    (hexcl : isInExcludedFolder eF eI cache doc = true)
    (hst : alookup state doc.id = some st)
    (htok : st.modified_time = doc.modifiedTime)
    (hname : st.name ≠ [])
    (hfile : mdFileName st.name ∈ files)
    (huniq : ∀ d' ∈ docs, d'.id = doc.id → d' = doc) :
    mdFileName st.name ∈ r.deletions ∧
    doc.id ∉ r.fetched ∧
    (∀ e ∈ r.updates, e.1 ≠ doc.id) ∧
    alookup r.newState doc.id = none := by
  have hcond : (eF.isEmpty && eI.isEmpty) = false := by
    cases hc : (eF.isEmpty && eI.isEmpty)
    · rfl
    · exfalso
      unfold isInExcludedFolder at hexcl
      rw [hc] at hexcl
      simp at hexcl
  subst hr
  rw [gdriveDownload_excl eF eI cache docs state fetch files hcond]
  have hkeptf := filterExcluded_kept eF eI cache state docs files
  have hnokept : ∀ d' ∈ (filterExcluded eF eI cache state docs files).docsKept,
      d'.id ≠ doc.id := by
    intro d' hd' heq
    obtain ⟨hdocs, hnx⟩ := hkeptf d' hd'
    have hde : d' = doc := huniq d' hdocs heq
    rw [hde] at hnx
    rw [hnx] at hexcl
    exact absurd hexcl (by simp)
  have htoSyncKeys : ∀ i ∈ (diffSplit state
      (filterExcluded eF eI cache state docs files).docsKept).2.map GDoc.id,
      i ≠ doc.id := by
    intro i hi
    obtain ⟨d', hd', hd'i⟩ := List.mem_map.mp hi
    rw [diffSplit_snd] at hd'
    have := (List.mem_filter.mp hd').1
    rw [← hd'i]
    exact hnokept d' this
  have hupdKeys : ∀ e ∈ (((diffSplit state
      (filterExcluded eF eI cache state docs files).docsKept).2.map (fun d =>
        match fetch d.id with
        | none => (d, (none : Option GItemState))
        | some _ => (d, some (⟨d.name, d.modifiedTime⟩ : GItemState)))).filterMap
      (fun p => p.2.map (fun st => (p.1.id, st)))), e.1 ≠ doc.id := by
    intro e he
    rw [results_state_entries fetch] at he
    obtain ⟨d', hd', hd'e⟩ := List.mem_map.mp he
    have hd'T := (List.mem_filter.mp hd').1
    rw [← hd'e]
    show d'.id ≠ doc.id
    rw [diffSplit_snd] at hd'T
    exact hnokept d' (List.mem_filter.mp hd'T).1
  refine ⟨?_, ?_, ?_, ?_⟩
  · exact filterExcluded_deletes eF eI cache state doc st hst hname docs files
      hmem hexcl hfile
  · intro hmemf
    exact htoSyncKeys doc.id hmemf rfl
  · exact hupdKeys
  · rw [alookup_foldl_upsert_notmem _ _ _ hupdKeys]
    rw [alookup_eq_none_iff]
    intro e he
    obtain ⟨d', hd', hd'i, _⟩ := diffSplit_fst_keys state _ e he
    rw [← hd'i]
    exact hnokept d' hd'

end GDrive
end SyncSpec

namespace SyncSpec
namespace GDrive

/-- Witness for C6: folder `F` is named `Archive`, pattern `archive` is
configured, document `D` (unchanged token `t1`, previously synced as
`Report`) sits in `F`; its artifact `Report.md` is deleted and `D` is
neither fetched nor part of the new state. -/
theorem C6_retroactive_deletion_witness :
    mdFileName (str "Report") ∈
      (gdriveDownload [str "archive"] [] [(str "F", ⟨str "Archive", []⟩)]
        [⟨str "D", str "Report", str "t1", [str "F"]⟩]
        [(str "D", ⟨str "Report", str "t1"⟩)]
        (fun _ => some (str "x")) [mdFileName (str "Report")]).deletions ∧
    str "D" ∉
      (gdriveDownload [str "archive"] [] [(str "F", ⟨str "Archive", []⟩)]
        [⟨str "D", str "Report", str "t1", [str "F"]⟩]
        [(str "D", ⟨str "Report", str "t1"⟩)]
        (fun _ => some (str "x")) [mdFileName (str "Report")]).fetched := by
  have hres : resolveFolderPath (str "F") [(str "F", ⟨str "Archive", []⟩)] [] =
      str "Archive" :=
    resolveFolderPath_of_root _ _ _ ⟨str "Archive", []⟩ (List.not_mem_nil _) rfl rfl
  have hexcl : isInExcludedFolder [str "archive"] []
      [(str "F", ⟨str "Archive", []⟩)]
      ⟨str "D", str "Report", str "t1", [str "F"]⟩ = true := by
    simp only [isInExcludedFolder]
    rw [hres]
    decide
  have h := C6_retroactive_deletion [str "archive"] []
    [(str "F", ⟨str "Archive", []⟩)]
    [⟨str "D", str "Report", str "t1", [str "F"]⟩]
    [(str "D", ⟨str "Report", str "t1"⟩)]
    (fun _ => some (str "x")) [mdFileName (str "Report")]
    ⟨str "D", str "Report", str "t1", [str "F"]⟩ ⟨str "Report", str "t1"⟩ _ rfl
    (by decide) hexcl rfl rfl (by decide) (by decide) (by decide)
  exact ⟨h.1, h.2.1⟩

end GDrive
end SyncSpec

namespace SyncSpec
namespace Gmail

/-!
## GmailConnector._is_sender_allowed
(`src/sync/connectors/gmail.py`, lines 117–131)
-/

/-- Python `email.split("@")[1]`: the characters between the first `@` and
the next `@` (or the end). -/
def domainPart (email : Str) : Str :=
  ((email.dropWhile (fun c => c ≠ '@')).drop 1).takeWhile (fun c => c ≠ '@')

/-- `_is_sender_allowed(sender_email)`: lowercase the sender, accept an
exact allowed address, otherwise accept when the domain after `@` is an
allowed domain. -/
def isSenderAllowed (allowedEmails allowedDomains : List Str) (sender : Str) : Bool :=
  let email := lowerStr sender
  if allowedEmails.contains email then true
  else if email.contains '@' then
    if allowedDomains.contains (domainPart email) then true else false
  else false

/-- Modelled from the spec's words: the sender is accepted iff its
lowercased address is an allowed address, or its lowercased domain part
(after `@`) is an allowed domain. -/
def specSenderAllowed (allowedEmails allowedDomains : List Str) (sender : Str) : Prop :=
  lowerStr sender ∈ allowedEmails ∨
  ((lowerStr sender).contains '@' = true ∧ domainPart (lowerStr sender) ∈ allowedDomains)

/-- C8: the sender check accepts exactly the spec's allow-list semantics —
lowercased exact-address match or lowercased domain match — and is
case-insensitive in the sender (it depends only on the lowercased
address); in particular `Alice@ACME.com` is retained when `acme.com` is
an allowed domain. -/
theorem C8_sender_allowlist :
    (∀ (ae ad : List Str) (s : Str),
      isSenderAllowed ae ad s = true ↔ specSenderAllowed ae ad s) ∧
    (∀ (ae ad : List Str) (s s' : Str), lowerStr s = lowerStr s' →
      isSenderAllowed ae ad s = isSenderAllowed ae ad s') ∧
    isSenderAllowed [] [str "acme.com"] (str "Alice@ACME.com") = true := by
  refine ⟨?_, ?_, ?_⟩
  · intro ae ad s
    unfold isSenderAllowed specSenderAllowed
    by_cases h1 : ae.contains (lowerStr s) = true
    · simp only [h1, if_pos rfl]
      constructor
      · intro _
        exact Or.inl (by simpa using h1)
      · intro _
        rfl
    · rw [if_neg (by rw [show ae.contains (lowerStr s) = false from
        Bool.eq_false_iff.mpr h1]; exact Bool.false_ne_true)]
      by_cases h2 : (lowerStr s).contains '@' = true
      · rw [if_pos h2]
        by_cases h3 : ad.contains (domainPart (lowerStr s)) = true
        · rw [if_pos h3]
          constructor
          · intro _
            exact Or.inr ⟨h2, by simpa using h3⟩
          · intro _
            rfl
        · rw [if_neg (by rw [show ad.contains (domainPart (lowerStr s)) = false from
            Bool.eq_false_iff.mpr h3]; exact Bool.false_ne_true)]
          constructor
          · intro h
            exact absurd h (by simp)
          · intro h
            rcases h with h | ⟨_, hd⟩
            · exact absurd (List.elem_eq_true_of_mem h) h1
            · exact absurd (List.elem_eq_true_of_mem hd) h3
      · rw [if_neg h2]
        constructor
        · intro h
          exact absurd h (by simp)
        · intro h
          rcases h with h | ⟨hc, _⟩
          · exact absurd (List.elem_eq_true_of_mem h) h1
          · exact absurd hc h2
  · intro ae ad s s' h
    unfold isSenderAllowed
    rw [h]
  · decide

/-- Witness for C8: the same allow-list decision for `alice@acme.com` in
two casings, via the case-insensitivity part. -/
theorem C8_sender_allowlist_witness :
    isSenderAllowed [] [str "acme.com"] (str "alice@acme.com") =
      isSenderAllowed [] [str "acme.com"] (str "ALICE@ACME.COM") :=
  C8_sender_allowlist.2.1 [] [str "acme.com"] (str "alice@acme.com")
    (str "ALICE@ACME.COM") (by decide)

end Gmail
end SyncSpec

namespace SyncSpec
namespace RateLimit

/-!
## RateLimiter (`src/sync/connectors/slack.py` 133–155,
`src/sync/connectors/gdrive.py` 170–191)

Float time/token arithmetic is modelled over `ℚ`.  `acquire()` is a step
function of the limiter state and the elapsed time since `last_update`;
it returns the new state and the cooperative sleep it performs.
-/

/-- Token-bucket state: `{rate, max_tokens, tokens}` (`last_update` is
replaced by passing the elapsed time into each acquire). -/
structure RL where
  rate : ℚ
  maxTokens : ℚ
  tokens : ℚ
deriving DecidableEq

/-- gdrive.py `RateLimiter.__init__`: capacity = rate, bucket starts full. -/
def initGdrive (rate : ℚ) : RL := ⟨rate, rate, rate⟩

/-- slack.py `RateLimiter.__init__`: `max_tokens = burst_capacity or
rate_per_second * 2` (Python `or`: `None` and `0` both fall back), bucket
starts full. -/
def initSlack (rate : ℚ) (burst : Option ℚ) : RL :=
  let mx := match burst with
    | none => rate * 2
    | some b => if b = 0 then rate * 2 else b
  ⟨rate, mx, mx⟩

/-- `acquire()` with `elapsed` seconds since the last update: refill to
`min(max_tokens, tokens + elapsed * rate)`; if fewer than one token,
sleep `(1 - tokens) / rate` and zero the bucket, else consume one. -/
def acquire (rl : RL) (elapsed : ℚ) : RL × ℚ :=
  let refilled := min rl.maxTokens (rl.tokens + elapsed * rl.rate)
  if refilled < 1 then
    ({ rl with tokens := 0 }, (1 - refilled) / rl.rate)
  else ({ rl with tokens := refilled - 1 }, 0)

/-- The limiter states after each of a sequence of acquires. -/
def runAcquires (rl : RL) : List ℚ → List RL
  | [] => []
  | e :: es => (acquire rl e).1 :: runAcquires (acquire rl e).1 es

theorem acquire_inv (rl : RL) (e : ℚ) (hrate : 0 < rl.rate)
    (hmax : 0 ≤ rl.maxTokens) (h0 : 0 ≤ rl.tokens) (h1 : rl.tokens ≤ rl.maxTokens)
    (he : 0 ≤ e) :
    0 ≤ (acquire rl e).1.tokens ∧ (acquire rl e).1.tokens ≤ rl.maxTokens ∧
    (acquire rl e).1.maxTokens = rl.maxTokens ∧ (acquire rl e).1.rate = rl.rate ∧
    0 ≤ (acquire rl e).2 := by
  unfold acquire
  have hre : 0 ≤ e * rl.rate := mul_nonneg he (le_of_lt hrate)
  by_cases hlt : min rl.maxTokens (rl.tokens + e * rl.rate) < 1
  · rw [if_pos hlt]
    refine ⟨le_refl 0, hmax, rfl, rfl, ?_⟩
    exact div_nonneg (by linarith) (le_of_lt hrate)
  · rw [if_neg hlt]
    push_neg at hlt
    have hmin := min_le_left rl.maxTokens (rl.tokens + e * rl.rate)
    refine ⟨?_, ?_, rfl, rfl, le_refl 0⟩
    · show 0 ≤ min rl.maxTokens (rl.tokens + e * rl.rate) - 1
      linarith
    · show min rl.maxTokens (rl.tokens + e * rl.rate) - 1 ≤ rl.maxTokens
      linarith

/-- C9: for every rate-limiter configuration and every sequence of
acquires at nonnegative elapsed times, the token count stays within
`[0, capacity]` at every step (capacity and rate never change, and the
cooperative wait is never negative); both constructors (gdrive:
capacity = rate; slack: burst capacity with `or`-fallback) start inside
the interval. -/
theorem C9_rate_limiter_bounds (rl : RL) (es : List ℚ) (hrate : 0 < rl.rate)
    (hmax : 0 ≤ rl.maxTokens) (h0 : 0 ≤ rl.tokens) (h1 : rl.tokens ≤ rl.maxTokens)
    (he : ∀ e ∈ es, 0 ≤ e) :
    (∀ rl' ∈ runAcquires rl es,
      0 ≤ rl'.tokens ∧ rl'.tokens ≤ rl.maxTokens ∧
      rl'.maxTokens = rl.maxTokens ∧ rl'.rate = rl.rate) ∧
    (∀ r : ℚ, 0 < r →
      0 ≤ (initGdrive r).tokens ∧ (initGdrive r).tokens ≤ (initGdrive r).maxTokens) ∧
    (∀ (r b : ℚ), 0 < r → 0 ≤ b →
      0 ≤ (initSlack r (some b)).tokens ∧
      (initSlack r (some b)).tokens ≤ (initSlack r (some b)).maxTokens) := by
  refine ⟨?_, ?_, ?_⟩
  · induction es generalizing rl with
    | nil =>
      intro rl' hrl'
      exact absurd hrl' (List.not_mem_nil rl')
    | cons e es ih =>
      intro rl' hrl'
      obtain ⟨ha0, ha1, hamax, harate, _⟩ :=
        acquire_inv rl e hrate hmax h0 h1 (he e (List.mem_cons_self _ _))
      rcases List.mem_cons.mp hrl' with rfl | hrl''
      · exact ⟨ha0, ha1, hamax, harate⟩
      · have hrec := ih (acquire rl e).1 (harate ▸ hrate) (hamax ▸ hmax) ha0
          (hamax ▸ ha1) (fun x hx => he x (List.mem_cons_of_mem _ hx)) rl' hrl''
        rw [hamax, harate] at hrec
        exact hrec
  · intro r hr
    exact ⟨le_of_lt hr, le_refl _⟩
  · intro r b hr hb
    have hshow : initSlack r (some b) =
        ⟨r, if b = 0 then r * 2 else b, if b = 0 then r * 2 else b⟩ := rfl
    rw [hshow]
    by_cases hb0 : b = 0
    · rw [if_pos hb0]
      exact ⟨by positivity, le_refl _⟩
    · rw [if_neg hb0]
      exact ⟨hb, le_refl _⟩

/-- Witness for C9 at a concrete configuration: a gdrive limiter of
rate 2, run over three back-to-back acquires; the constructor starts the
bucket inside `[0, capacity]`. -/
theorem C9_rate_limiter_bounds_witness :
    0 ≤ (initGdrive 2).tokens ∧ (initGdrive 2).tokens ≤ (initGdrive 2).maxTokens :=
  (C9_rate_limiter_bounds (initGdrive 2) [0, 0, 0] (by decide) (by decide)
    (by decide) (by decide) (by decide)).2.1 2 (by decide)

end RateLimit
end SyncSpec

namespace SyncSpec
namespace Orchestrator

/-- A connector behaviour with its returned new-state mapping blanked
(the orchestrator never reads it). -/
def eraseRet {α : Type} (c : CRun α) : CRun α :=
  ⟨c.cname, c.enabledC, c.setupOk, c.updates,
    match c.outcome with
    | COutcome.ok _ s k => COutcome.ok [] s k
    | COutcome.exn => COutcome.exn⟩

theorem eraseRet_setupOk {α : Type} (c : CRun α) : (eraseRet c).setupOk = c.setupOk := rfl

theorem eraseRet_cname {α : Type} (c : CRun α) : (eraseRet c).cname = c.cname := rfl

theorem eraseRet_updates {α : Type} (c : CRun α) : (eraseRet c).updates = c.updates := rfl

theorem matchUpd_eraseRet {α : Type} (c : CRun α) (b upd : Bool) :
    (match (eraseRet c).outcome, b with
      | COutcome.ok _ synced _, true => upd || decide (0 < synced)
      | _, _ => upd) =
    (match c.outcome, b with
      | COutcome.ok _ synced _, true => upd || decide (0 < synced)
      | _, _ => upd) := by
  rcases hco : c.outcome with ⟨ret, s, k⟩ | _ <;> cases b <;> simp [eraseRet, hco]

theorem runConnLoop_eraseRet {α : Type} :
    ∀ (cs : List (CRun α)) (sm : SMgr α) (upd : Bool) (tr : List Event),
      runConnLoop sm upd tr (cs.map eraseRet) = runConnLoop sm upd tr cs := by
  intro cs
  induction cs with
  | nil => intro sm upd tr; rfl
  | cons c rest ih =>
    intro sm upd tr
    rw [List.map_cons]
    cases hs : c.setupOk
    · have hL : runConnLoop sm upd tr (eraseRet c :: rest.map eraseRet) =
          runConnLoop sm upd (tr ++ [Event.setupEv c.cname false]) (rest.map eraseRet) := by
        simp only [runConnLoop, eraseRet_setupOk, eraseRet_cname, eraseRet_updates,
          hs, Bool.false_eq_true, if_false]
      have hR : runConnLoop sm upd tr (c :: rest) =
          runConnLoop sm upd (tr ++ [Event.setupEv c.cname false]) rest := by
        simp only [runConnLoop, hs, Bool.false_eq_true, if_false]
      rw [hL, hR, ih]
    · have hL : runConnLoop sm upd tr (eraseRet c :: rest.map eraseRet) =
          runConnLoop (applyUpdates sm c.cname c.updates).1
            (match c.outcome, (applyUpdates sm c.cname c.updates).2 with
              | COutcome.ok _ synced _, true => upd || decide (0 < synced)
              | _, _ => upd)
            (tr ++ [Event.setupEv c.cname true, Event.downloadEv c.cname])
            (rest.map eraseRet) := by
        simp only [runConnLoop, eraseRet_setupOk, eraseRet_cname, eraseRet_updates,
          hs, if_true]
        rw [matchUpd_eraseRet c _ upd]
      have hR : runConnLoop sm upd tr (c :: rest) =
          runConnLoop (applyUpdates sm c.cname c.updates).1
            (match c.outcome, (applyUpdates sm c.cname c.updates).2 with
              | COutcome.ok _ synced _, true => upd || decide (0 < synced)
              | _, _ => upd)
            (tr ++ [Event.setupEv c.cname true, Event.downloadEv c.cname]) rest := by
        simp only [runConnLoop, hs, if_true]
      rw [hL, hR, ih]

theorem filter_map_eraseRet {α : Type} (p : CRun α → Bool)
    (hp : ∀ c, p (eraseRet c) = p c) :
    ∀ cs : List (CRun α), (cs.map eraseRet).filter p = (cs.filter p).map eraseRet := by
  intro cs
  induction cs with
  | nil => rfl
  | cons c rest ih =>
    rw [List.map_cons, List.filter_cons, List.filter_cons, hp]
    cases hpc : p c
    · simpa using ih
    · simp [ih]

theorem effConnectors_eraseRet {α : Type} (cs : List (CRun α)) (cfilter : List Str) :
    effConnectors (cs.map eraseRet) cfilter = (effConnectors cs cfilter).map eraseRet := by
  unfold effConnectors
  rw [filter_map_eraseRet (·.enabledC) (fun c => rfl) cs]
  cases hf : cfilter.isEmpty
  · simp only [Bool.false_eq_true, if_false]
    rw [filter_map_eraseRet (fun c => cfilter.contains c.cname) (fun c => rfl)]
  · simp

theorem syncAll_empty_case {α : Type} (cs : List (CRun α)) (cfilter : List Str)
    (st0 : SyncState α) (now : Str) (h : (effConnectors cs cfilter).isEmpty = true) :
    syncAll cs cfilter st0 now = (SMgr.load st0, false, []) := by
  simp only [syncAll, h, if_true]

theorem syncAll_nonempty_case {α : Type} (cs : List (CRun α)) (cfilter : List Str)
    (st0 : SyncState α) (now : Str) (h : (effConnectors cs cfilter).isEmpty = false) :
    syncAll cs cfilter st0 now =
      (SMgr.finalize
        (runConnLoop (SMgr.load st0) false [] (effConnectors cs cfilter)).1 now,
       (runConnLoop (SMgr.load st0) false [] (effConnectors cs cfilter)).2.1,
       (runConnLoop (SMgr.load st0) false [] (effConnectors cs cfilter)).2.2 ++
         [Event.finalizeEv]) := by
  simp only [syncAll, h, Bool.false_eq_true, if_false]

theorem syncAll_eraseRet {α : Type} (cs : List (CRun α)) (cfilter : List Str)
    (st0 : SyncState α) (now : Str) :
    syncAll (cs.map eraseRet) cfilter st0 now = syncAll cs cfilter st0 now := by
  cases hf : (effConnectors cs cfilter).isEmpty
  · have hfm : (effConnectors (cs.map eraseRet) cfilter).isEmpty = false := by
      rw [effConnectors_eraseRet]
      cases h : effConnectors cs cfilter with
      | nil => rw [h] at hf; simp at hf
      | cons a l => rfl
    rw [syncAll_nonempty_case _ _ _ _ hfm, syncAll_nonempty_case _ _ _ _ hf,
      effConnectors_eraseRet, runConnLoop_eraseRet]
  · have hfm : (effConnectors (cs.map eraseRet) cfilter).isEmpty = true := by
      rw [effConnectors_eraseRet]
      cases h : effConnectors cs cfilter with
      | nil => rfl
      | cons a l => rw [h] at hf; simp at hf
    rw [syncAll_empty_case _ _ _ _ hfm, syncAll_empty_case _ _ _ _ hf]

theorem itemLookup_congr {α : Type} (st st' : SyncState α) (source i : Str)
    (h : alookup st' source = alookup st source) :
    itemLookup st' source i = itemLookup st source i := by
  unfold itemLookup
  rw [h]

theorem applyAll_frame {α : Type} :
    ∀ (ups : List (Str × Str × α)) (st : SyncState α) (source i : Str),
      (∀ u ∈ ups, ¬(u.1 = source ∧ u.2.1 = i)) →
      itemLookup (applyAll st ups) source i = itemLookup st source i := by
  intro ups
  induction ups with
  | nil => intro st source i _; rfl
  | cons u rest ih =>
    intro st source i hu
    obtain ⟨s', i', v⟩ := u
    have hstep : itemLookup ((updateItemState st s' i' v).getD st) source i =
        itemLookup st source i := by
      rcases hup : updateItemState st s' i' v with _ | st'
      · rfl
      · rw [Option.getD_some]
        by_cases hss : s' = source
        · subst hss
          have hii : i ≠ i' := by
            intro hii
            exact hu (s', i', v) (List.mem_cons_self _ _) ⟨rfl, hii.symm⟩
          exact updateItemState_frame_item st st' s' i' i v hup hii
        · exact itemLookup_congr st st' source i
            (updateItemState_frame_source st st' s' i' source v hup
              (fun h => hss h.symm))
    show itemLookup (applyAll ((updateItemState st s' i' v).getD st) rest) source i = _
    rw [ih _ source i (fun u' hu' => hu u' (List.mem_cons_of_mem _ hu')), hstep]

theorem itemLookup_finalize {α : Type} (st : SyncState α) (now source i : Str)
    (h : source ≠ lastSyncKey) :
    itemLookup (finalizeState st now) source i = itemLookup st source i :=
  itemLookup_congr st (finalizeState st now) source i
    (alookup_upsert_ne st lastSyncKey source _ h)

end Orchestrator
end SyncSpec

namespace SyncSpec
namespace Orchestrator

/-- C10: the orchestrator discards each connector's returned new-state
mapping — blanking every returned mapping leaves the whole run unchanged —
and the persisted state after a run is exactly the loaded state overlaid
with the `update_item` upserts made during the run, plus the finalize
timestamp, flushed to the state file; an item never upserted keeps its
loaded entry (so it is retried next run).  In particular a Drive document
whose content fetch fails produces no `update_item` call and is absent
from the returned new-state mapping. -/
theorem C10_returned_state_discarded (α : Type) (cs : List (CRun α))
    (cfilter : List Str) (st0 : SyncState α) (now : Str)
    (hclean : ∀ c ∈ effConnectors cs cfilter, notTimeAt st0 c.cname)
    (hne : effConnectors cs cfilter ≠ []) :
    ((syncAll cs cfilter st0 now).1.mem =
       finalizeState (applyAll st0 (ranUpdates (effConnectors cs cfilter))) now ∧
     (syncAll cs cfilter st0 now).1.disk = (syncAll cs cfilter st0 now).1.mem) ∧
    syncAll (cs.map eraseRet) cfilter st0 now = syncAll cs cfilter st0 now ∧
    (∀ source i : Str, source ≠ lastSyncKey →
      (∀ u ∈ ranUpdates (effConnectors cs cfilter), ¬(u.1 = source ∧ u.2.1 = i)) →
      itemLookup (syncAll cs cfilter st0 now).1.mem source i =
        itemLookup st0 source i) ∧
    (∀ (cache : GDrive.FolderCache) (docs : List GDrive.GDoc)
       (state : GDrive.GState) (fetch : Str → Option Str) (files : List Str)
       (doc : GDrive.GDoc),
      doc ∈ docs → GDrive.unchangedIn state doc = false → fetch doc.id = none →
      (∀ d' ∈ docs, d'.id = doc.id → d' = doc) →
      (∀ e ∈ (GDrive.gdriveDownload [] [] cache docs state fetch files).updates,
        e.1 ≠ doc.id) ∧
      alookup (GDrive.gdriveDownload [] [] cache docs state fetch files).newState
        doc.id = none) := by
  obtain ⟨hmem, hdisk⟩ := syncAll_state_clean cs cfilter st0 now hclean hne
  refine ⟨⟨hmem, hdisk⟩, syncAll_eraseRet cs cfilter st0 now, ?_, ?_⟩
  · intro source i hsrc hups
    rw [hmem, itemLookup_finalize _ _ _ _ hsrc,
      applyAll_frame _ st0 source i hups]
  · intro cache docs state fetch files doc hmemd hch hfnone huniq
    rw [GDrive.gdriveDownload_no_excl]
    have hkeys : ∀ e ∈ (((GDrive.diffSplit state docs).2.map (fun d =>
        match fetch d.id with
        | none => (d, (none : Option GDrive.GItemState))
        | some _ =>
          (d, some (⟨d.name, d.modifiedTime⟩ : GDrive.GItemState)))).filterMap
        (fun p => p.2.map (fun st => (p.1.id, st)))), e.1 ≠ doc.id := by
      intro e he heq
      rw [GDrive.results_state_entries fetch] at he
      obtain ⟨d', hd', hd'e⟩ := List.mem_map.mp he
      have hd'F := List.mem_filter.mp hd'
      rw [GDrive.diffSplit_snd] at hd'F
      have hd'docs := (List.mem_filter.mp hd'F.1).1
      have hid : d'.id = doc.id := by rw [← heq, ← hd'e]
      have hde : d' = doc := huniq d' hd'docs hid
      rw [hde, hfnone] at hd'F
      exact absurd hd'F.2 (by simp)
    refine ⟨hkeys, ?_⟩
    rw [GDrive.alookup_foldl_upsert_notmem _ _ _ hkeys, GDrive.alookup_eq_none_iff]
    intro e he heq
    obtain ⟨d', hd'docs, hd'i, hd'u⟩ := GDrive.diffSplit_fst_keys state docs e he
    have hde : d' = doc := huniq d' hd'docs (by rw [hd'i, heq])
    rw [hde, hch] at hd'u
    exact absurd hd'u (by simp)

/-- Witness for C10: one connector that upserts item `d1`; the persisted
state is the loaded (empty) state overlaid with that upsert plus the
finalize timestamp. -/
theorem C10_returned_state_discarded_witness :
    (syncAll [⟨str "gdrive", true, true, [(str "d1", ())], COutcome.ok [] 1 0⟩]
      ([] : List Str) ([] : SyncState Unit) (str "t")).1.mem =
      finalizeState (applyAll []
        (ranUpdates (effConnectors
          [⟨str "gdrive", true, true, [(str "d1", ())], COutcome.ok [] 1 0⟩]
          ([] : List Str)))) (str "t") :=
  (C10_returned_state_discarded Unit
    [⟨str "gdrive", true, true, [(str "d1", ())], COutcome.ok [] 1 0⟩]
    ([] : List Str) ([] : SyncState Unit) (str "t")
    (by intro c hc t ht; simp [alookup] at ht) (by decide)).1.1

end Orchestrator
end SyncSpec
